import Mathlib

set_option autoImplicit false

/-!
Verification development for the DaggerHeart_Homebrew conversion scripts.

The repository converts tabletop-game card records between three JSON
dialects.  Records are untyped JSON objects (Python dicts with string keys
and heterogeneous values).  We embed JSON values as `JVal`, Python dicts as
ordered association lists (`Dict`), and the conversion functions
(`work_zzz` / `work_rrr` from zzz2rrr.py, `work` from zzz2keyword.py,
`convert_environment` from zzz2rink.py) as Lean functions in the
`Except String` monad: a `.error` result models a raised Python exception
(tags "IndexError" / "ValueError" / "TypeError" name the exception class;
`str()` applied to a list or dict value is outside the modelled fragment
and is mapped to the tag "StrOfContainerUnmodeled").

Modelling conventions:
  * Python dict lookup `d.get(k, default)` is `dgetD`, item assignment is
    `dset` (update in place, insertion order preserved, new keys appended),
    `d.pop(k, None)` is `dpop`, `d.update(e)` is `dupdate`.
  * All `str.split` call sites in the sources use one-character separators,
    so splitting is embedded character-wise (`pySplit`); `str.replace` is
    embedded by `pyReplace` (leftmost, non-overlapping, all occurrences).
  * `str.isdigit` and the regex class `\d` are modelled over ASCII digits
    (the digit classes of the inputs actually exercised by the scripts).
    `int(...)` on strings is modelled as optional sign plus ASCII digits.
  * `gen_uuid` draws random identifiers; it is modelled as an explicit
    supply `u : Nat → String` threaded through `work_zzz` by a counter.
-/

/-- Embedded JSON value: the value space of the records processed by the
scripts (strings, integers, booleans, arrays, objects). -/
inductive JVal where
  | s (v : String)
  | i (v : Int)
  | b (v : Bool)
  | arr (items : List JVal)
  | obj (fields : List (String × JVal))

mutual
/-- Decidable equality on `JVal`, written as a recursive definition so the
kernel can evaluate it on concrete records. -/
def JVal.decEq : (a b : JVal) → Decidable (a = b)
  | .s x, .s y => decidable_of_iff (x = y) (by simp)
  | .i x, .i y => decidable_of_iff (x = y) (by simp)
  | .b x, .b y => decidable_of_iff (x = y) (by simp)
  | .arr x, .arr y =>
    match decEqArr x y with
    | isTrue h => isTrue (by rw [h])
    | isFalse h => isFalse (by simpa using h)
  | .obj x, .obj y =>
    match decEqObj x y with
    | isTrue h => isTrue (by rw [h])
    | isFalse h => isFalse (by simpa using h)
  | .s _, .i _ => isFalse (fun h => JVal.noConfusion h)
  | .s _, .b _ => isFalse (fun h => JVal.noConfusion h)
  | .s _, .arr _ => isFalse (fun h => JVal.noConfusion h)
  | .s _, .obj _ => isFalse (fun h => JVal.noConfusion h)
  | .i _, .s _ => isFalse (fun h => JVal.noConfusion h)
  | .i _, .b _ => isFalse (fun h => JVal.noConfusion h)
  | .i _, .arr _ => isFalse (fun h => JVal.noConfusion h)
  | .i _, .obj _ => isFalse (fun h => JVal.noConfusion h)
  | .b _, .s _ => isFalse (fun h => JVal.noConfusion h)
  | .b _, .i _ => isFalse (fun h => JVal.noConfusion h)
  | .b _, .arr _ => isFalse (fun h => JVal.noConfusion h)
  | .b _, .obj _ => isFalse (fun h => JVal.noConfusion h)
  | .arr _, .s _ => isFalse (fun h => JVal.noConfusion h)
  | .arr _, .i _ => isFalse (fun h => JVal.noConfusion h)
  | .arr _, .b _ => isFalse (fun h => JVal.noConfusion h)
  | .arr _, .obj _ => isFalse (fun h => JVal.noConfusion h)
  | .obj _, .s _ => isFalse (fun h => JVal.noConfusion h)
  | .obj _, .i _ => isFalse (fun h => JVal.noConfusion h)
  | .obj _, .b _ => isFalse (fun h => JVal.noConfusion h)
  | .obj _, .arr _ => isFalse (fun h => JVal.noConfusion h)

/-- Decidable equality on lists of `JVal`. -/
def decEqArr : (xs ys : List JVal) → Decidable (xs = ys)
  | [], [] => isTrue rfl
  | x :: xs, y :: ys =>
    match JVal.decEq x y, decEqArr xs ys with
    | isTrue h1, isTrue h2 => isTrue (by rw [h1, h2])
    | isFalse h1, _ => isFalse (by simp [h1])
    | _, isFalse h2 => isFalse (by simp [h2])
  | [], _ :: _ => isFalse (fun h => List.noConfusion h)
  | _ :: _, [] => isFalse (fun h => List.noConfusion h)

/-- Decidable equality on lists of key-value pairs. -/
def decEqObj : (xs ys : List (String × JVal)) → Decidable (xs = ys)
  | [], [] => isTrue rfl
  | (k1, v1) :: xs, (k2, v2) :: ys =>
    match String.decEq k1 k2, JVal.decEq v1 v2, decEqObj xs ys with
    | isTrue h0, isTrue h1, isTrue h2 => isTrue (by rw [h0, h1, h2])
    | isFalse h0, _, _ => isFalse (by simp [h0])
    | _, isFalse h1, _ => isFalse (by simp [h1])
    | _, _, isFalse h2 => isFalse (by simp [h2])
  | [], _ :: _ => isFalse (fun h => List.noConfusion h)
  | _ :: _, [] => isFalse (fun h => List.noConfusion h)
end

instance : DecidableEq JVal := JVal.decEq

instance {ε α : Type} [DecidableEq ε] [DecidableEq α] : DecidableEq (Except ε α) := fun a b =>
  match a, b with
  | .ok x, .ok y => decidable_of_iff (x = y) (by simp)
  | .error x, .error y => decidable_of_iff (x = y) (by simp)
  | .ok _, .error _ => isFalse (fun h => Except.noConfusion h)
  | .error _, .ok _ => isFalse (fun h => Except.noConfusion h)

/-- A Python dict, embedded as an insertion-ordered association list.
Real Python dicts never hold a key twice; quantified theorems that need
this well-formedness state it through `keysNodup`. -/
abbrev Dict := List (String × JVal)

/-- Keys of a dict, in insertion order. -/
def dkeys (d : Dict) : List String := d.map Prod.fst

/-- Well-formedness of an embedded dict: each key occurs once. -/
def keysNodup (d : Dict) : Prop := (dkeys d).Nodup

/-- Python `d[k]` / `d.get(k)`: the value at the first (for a well-formed
dict, only) occurrence of key `k`. -/
def dget (d : Dict) (k : String) : Option JVal :=
  (d.find? (fun p => p.1 == k)).map (·.2)

/-- Python `d.get(k, default)`. -/
def dgetD (d : Dict) (k : String) (v : JVal) : JVal := (dget d k).getD v

/-- Python `d[k] = v`: update the value in place if `k` is present,
otherwise append the new key at the end. -/
def dset (d : Dict) (k : String) (v : JVal) : Dict :=
  match d with
  | [] => [(k, v)]
  | p :: rest => if p.1 == k then (k, v) :: rest else p :: dset rest k v

/-- Python `d.pop(k, None)` (the removal effect): erase the first
occurrence of key `k`. -/
def dpop (d : Dict) (k : String) : Dict := d.eraseP (fun p => p.1 == k)

/-- Python `base.update(d)`: assign every pair of `d` into `base` in
order. -/
def dupdate (base d : Dict) : Dict := d.foldl (fun acc p => dset acc p.1 p.2) base

/-- Python truthiness of an embedded value. -/
def truthy : JVal → Bool
  | .s v => v ≠ ""
  | .i v => v ≠ 0
  | .b v => v
  | .arr l => !l.isEmpty
  | .obj l => !l.isEmpty

/-- Character-wise splitting, the embedding of Python `s.split(sep)` for
the one-character separators used throughout the sources.  Always returns
at least one piece; empty pieces are kept, as in Python. -/
def splitCh (c : Char) : List Char → List (List Char)
  | [] => [[]]
  | a :: rest =>
    match splitCh c rest with
    | [] => [[]]
    | x :: xs => if a == c then [] :: x :: xs else (a :: x) :: xs

/-- Python `s.split(sep)` for a one-character separator, at `String`
level. -/
def pySplit (s : String) (c : Char) : List String :=
  (splitCh c s.data).map (fun l => String.mk l)

/-- Joining with a one-character separator (the inverse direction of
`splitCh`). -/
def joinCh (c : Char) : List (List Char) → List Char
  | [] => []
  | [x] => x
  | x :: y :: xs => x ++ c :: joinCh c (y :: xs)

/-- Python `sep in s` for the one-character needles used in the sources. -/
def pyContains (s : String) (c : Char) : Bool := s.data.contains c

/-- Python `s.split(sep, 1)` restricted to the case `sep in s`, returning
the part before the first separator and the remainder. -/
def splitOnceCh (c : Char) : List Char → (List Char × List Char)
  | [] => ([], [])
  | a :: rest =>
    if a == c then ([], rest)
    else
      let r := splitOnceCh c rest
      (a :: r.1, r.2)

/-- Python `s.replace(old, new)` on character lists: scan left to right,
replacing every non-overlapping occurrence of `pat`.  The `skip` counter
carries the tail of a match that has already been consumed. -/
def replChGo (pat rep : List Char) : List Char → Nat → List Char
  | [], _ => []
  | _ :: rest, Nat.succ k => replChGo pat rep rest k
  | a :: rest, 0 =>
    if (a :: rest).take pat.length == pat then
      rep ++ replChGo pat rep rest (pat.length - 1)
    else
      a :: replChGo pat rep rest 0

/-- Python `s.replace(old, new)` (for the non-empty patterns the sources
use). -/
def pyReplace (s pat rep : String) : String :=
  String.mk (replChGo pat.data rep.data s.data 0)

/-- Python `s.isdigit()` over the ASCII digit class. -/
def pyIsDigit (s : String) : Bool := !s.data.isEmpty && s.data.all (·.isDigit)

/-- Numeric value of an ASCII digit string. -/
def digitsToNat (l : List Char) : Nat :=
  l.foldl (fun n c => 10 * n + (c.toNat - '0'.toNat)) 0

/-- Python `int(s)` on a string: optional sign followed by ASCII digits;
anything else raises `ValueError` (modelled as `none`). -/
def pyIntOfStr (s : String) : Option Int :=
  match s.data with
  | [] => none
  | '+' :: rest =>
    if !rest.isEmpty && rest.all (·.isDigit) then some (digitsToNat rest) else none
  | '-' :: rest =>
    if !rest.isEmpty && rest.all (·.isDigit) then some (-(digitsToNat rest : Int)) else none
  | l => if l.all (·.isDigit) then some (digitsToNat l) else none

/-- Decimal digits of a natural number (fuelled so the recursion is
structural; `n + 1` units of fuel always suffice). -/
def natDigits (fuel n : Nat) : List Char :=
  match fuel with
  | 0 => []
  | fuel' + 1 =>
    if n < 10 then [Nat.digitChar n] else natDigits fuel' (n / 10) ++ [Nat.digitChar (n % 10)]

/-- Decimal rendering of a natural number. -/
def natToStr (n : Nat) : String := String.mk (natDigits (n + 1) n)

/-- Python `str(k)` for an integer. -/
def intToStr (k : Int) : String :=
  if k < 0 then "-" ++ natToStr k.natAbs else natToStr k.toNat

/-- Whitespace class of Python's `str.strip()` and the regex class `\s`
(over the ASCII range exercised by the inputs). -/
def isPyWs (c : Char) : Bool :=
  c == ' ' || c == '\t' || c == '\n' || c == '\r' || c == '\x0b' || c == '\x0c'

/-- Python `s.strip()`. -/
def pyStrip (s : String) : String :=
  String.mk (((s.data.dropWhile isPyWs).reverse.dropWhile isPyWs).reverse)

/-- Calling a `str` method on (or applying `str`-only concatenation to) a
non-string value raises; this coercion models those call sites. -/
def asStrE : JVal → Except String String
  | .s t => .ok t
  | _ => .error "TypeError"

/-- Python `int(v)`: integers and booleans coerce, strings parse via
`pyIntOfStr`, containers raise. -/
def pyIntE : JVal → Except String Int
  | .i k => .ok k
  | .b true => .ok 1
  | .b false => .ok 0
  | .s t =>
    match pyIntOfStr t with
    | some k => .ok k
    | none => .error "ValueError"
  | _ => .error "TypeError"

/-- Python `str(v)` / f-string interpolation of a value.  Scalars are
rendered; Python's `repr`-style rendering of lists and dicts is outside
the modelled fragment. -/
def pyStrE : JVal → Except String String
  | .s t => .ok t
  | .i k => .ok (intToStr k)
  | .b true => .ok "True"
  | .b false => .ok "False"
  | _ => .error "StrOfContainerUnmodeled"

/-- Python `l[i]`: `IndexError` when the index is out of range. -/
def pyIndex {α : Type} (l : List α) (i : Nat) : Except String α :=
  match l.get? i with
  | some x => .ok x
  | none => .error "IndexError"

/-- The deduplicating insertion used for the `customFieldDefinitions`
lists: `if x not in l: l.append(x)`. -/
def insertNew (l : List JVal) (x : JVal) : List JVal :=
  if l.contains x then l else l ++ [x]

/-- Order-of-first-appearance deduplication of a list (the accumulated
effect of `insertNew` over a run). -/
def firstSeen (xs : List JVal) : List JVal := xs.foldl insertNew []

/-- The domain-string normalization of the 主职 branch of `work_zzz`
(zzz2rrr.py line 153): collapse the `&`/`和`/`，`/`,` separators to `+`
and delete spaces. -/
def normDomain (s : String) : String :=
  pyReplace (pyReplace (pyReplace (pyReplace (pyReplace (pyReplace
    s "&" "+") "和" "+") "，" "+") "," "+") " " "") "&" "+"

/-- Subclass tier vocabulary, zzz side to rrr side (基础→基石, 进阶→专精,
精通→大师; zzz2rrr.py line 202). -/
def tierToRrr (s : String) : String :=
  pyReplace (pyReplace (pyReplace s "基础" "基石") "进阶" "专精") "精通" "大师"

/-- Subclass tier vocabulary, rrr side to zzz side (zzz2rrr.py line 275). -/
def tierToZzz (s : String) : String :=
  pyReplace (pyReplace (pyReplace s "基石" "基础") "专精" "进阶") "大师" "精通"

/-- The aggregate package object built by `work_zzz` (zzz2rrr.py lines
125-143): the five `customFieldDefinitions` deduplication lists and the
six category lists.  The metadata fields (name, version, description,
author) are derived from the file path and the clock, are never read by
`work_rrr`, and are not part of the modelled state. -/
structure ZOut where
  professions : List JVal
  ancestries : List JVal
  communities : List JVal
  domains : List JVal
  variants : List JVal
  profession : List Dict
  ancestry : List Dict
  community : List Dict
  subclass : List Dict
  domain : List Dict
  variant : List Dict
deriving DecidableEq

/-- The freshly initialized output package of `work_zzz`. -/
def zzzInit : ZOut := ⟨[], [], [], [], [], [], [], [], [], [], []⟩

/-- The brief-info split of the variant branch (zzz2rrr.py line 223):
`info.split("/") if info else []`, raising when a truthy non-string is
split. -/
def variantParts (info : JVal) : Except String (List String) :=
  if truthy info then (asStrE info).map (fun s => pySplit s '/') else pure []

/-- The 回想 coercion of the domain-card branch (zzz2rrr.py line 215):
digit strings become integers, anything else passes through; `int()` on a
digit string cannot fail. -/
def zzzRecall (recallS : String) : Except String JVal :=
  if pyIsDigit recallS then
    match pyIntOfStr recallS with
    | some k => pure (JVal.i k)
    | none => Except.error "ValueError"
  else pure (JVal.s recallS)

/-- One iteration of the `for d in data` loop of `work_zzz` (zzz2rrr.py
lines 144-228).  `u` is the identifier supply and `n` the number of
identifiers already drawn; the returned `Dict` is the post-call state of
the input record (the variant branch mutates it in place). -/
def zzzStep (u : Nat → String) (o : ZOut) (n : Nat) (d : Dict) :
    Except String (ZOut × Nat × Dict) :=
  let type_ := dgetD d "类型" (.s "")
  let name_ := dgetD d "名称" (.s "")
  let base : Dict := [("id", .s (u n)), ("名称", name_)]
  if type_ = .s "主职" then do
    let profs := insertNew o.professions name_
    let dom ← asStrE (dgetD d "领域" (.s ""))
    let parts := pySplit (normDomain dom) '+'
    let hp ← pyIntE (dgetD d "初始生命点" (.s ""))
    let ev ← pyIntE (dgetD d "初始闪避值" (.s ""))
    let rec1 : Dict := base ++
      [("领域1", .s (parts.getD 0 "")), ("领域2", .s (parts.getD 1 "")),
       ("起始生命", .i hp), ("起始闪避", .i ev),
       ("起始物品", dgetD d "初始物品" (.s " ")),
       ("简介", dgetD d "简介" (.s "N/A")),
       ("希望特性", dgetD d "希望特性" (.s "")),
       ("职业特性", dgetD d "职业特性" (.s "")),
       ("imageUrl", .s "")]
    pure ({ o with professions := profs, profession := o.profession ++ [rec1] }, n + 1, d)
  else if type_ = .s "种族" then do
    let ancs := insertNew o.ancestries name_
    let desc ← asStrE (dgetD d "描述" (.s ""))
    let features := pySplit (pyReplace (pyReplace desc ":" "：") "\n\n" "\n") '\n'
    let line0 ← pyIndex features 0
    let feat0 := pySplit line0 '：'
    let fname0 ← pyIndex feat0 0
    let feff0 ← pyIndex feat0 1
    let rec1 : Dict := dset base "名称" (.s fname0) ++
      [("种族", name_), ("简介", dgetD d "简介" (.s "N/A")),
       ("效果", .s feff0), ("类别", .i 1), ("imageUrl", .s "")]
    let line1 ← pyIndex features 1
    let feat1 := pySplit line1 '：'
    let fname1 ← pyIndex feat1 0
    let feff1 ← pyIndex feat1 1
    let rec2 : Dict := [("id", .s (u (n + 1))), ("名称", .s fname1), ("种族", name_),
      ("简介", dgetD d "简介" (.s "N/A")), ("效果", .s feff1), ("类别", .i 2),
      ("imageUrl", .s "")]
    pure ({ o with ancestries := ancs, ancestry := o.ancestry ++ [rec1, rec2] }, n + 2, d)
  else if type_ = .s "社群" then do
    let comms := insertNew o.communities name_
    let fs ← asStrE (dgetD d "描述" (.s ""))
    let fn_fd := if pyContains fs '：' then splitOnceCh '：' fs.data else (fs.data, [])
    let rec1 : Dict := base ++
      [("特性", .s (String.mk fn_fd.1)), ("简介", dgetD d "简介" (.s "N/A")),
       ("描述", .s (String.mk fn_fd.2)), ("imageUrl", .s "")]
    pure ({ o with communities := comms, community := o.community ++ [rec1] }, n + 1, d)
  else if type_ = .s "子职" then do
    let nm ← asStrE name_
    let sub := if pyContains nm '-' then (pySplit nm '-').getD 0 "" else nm
    let lvS ← asStrE (dgetD d "等级" (.s ""))
    let lv := tierToRrr lvS
    let cast := dgetD d "施法属性" (.s "")
    let castOut := if truthy cast then cast else JVal.s "不可施法"
    let rec1 : Dict := base ++
      [("描述", dgetD d "描述" (.s "")), ("主职", dgetD d "主职" (.s "")),
       ("子职业", .s sub), ("等级", .s lv), ("施法", castOut), ("imageUrl", .s "")]
    pure ({ o with subclass := o.subclass ++ [rec1] }, n + 1, d)
  else if type_ = .s "领域卡" then do
    let dom := dgetD d "领域" (.s "")
    let doms := insertNew o.domains dom
    let lvl ← pyIntE (dgetD d "等级" (.s ""))
    let recallS ← asStrE (dgetD d "回想" (.s ""))
    let recallV ← zzzRecall recallS
    let rec1 : Dict := base ++
      [("领域", dom), ("等级", .i lvl), ("属性", dgetD d "属性" (.s "")),
       ("回想", recallV), ("描述", dgetD d "描述" (.s "")), ("imageUrl", .s "")]
    pure ({ o with domains := doms, domain := o.domain ++ [rec1] }, n + 1, d)
  else do
    let vars := insertNew o.variants type_
    let info := dgetD d "简略信息" (.s "")
    let parts ← variantParts info
    let feat := dgetD d "特性" (.s "")
    let items : Dict := parts.enum.map (fun p => ("item" ++ natToStr p.1, JVal.s p.2))
    let d' := dset (dset d "效果" feat) "简略信息" (.obj items)
    let rec1 : Dict := dupdate base d'
    pure ({ o with variants := vars, variant := o.variant ++ [rec1] }, n + 1, d')

/-- `work_zzz` (zzz2rrr.py lines 111-229): fold `zzzStep` over the input
records.  The third component of the result is the post-call state of the
input list (the records still referenced by the caller). -/
def work_zzz (data : List Dict) (u : Nat → String) (n0 : Nat) :
    Except String (ZOut × Nat × List Dict) :=
  data.foldlM
    (fun acc d => do
      let (o', n', d') ← zzzStep u acc.1 acc.2.1 d
      pure (o', n', acc.2.2 ++ [d']))
    (zzzInit, n0, ([] : List Dict))

/-- The keyed accumulator `race_dict` of `work_rrr`: ancestry name to
merged flat record, in insertion (first-seen) order. -/
abbrev RaceD := List (JVal × Dict)

/-- Python `race_dict.get(k, False)` (the lookup part). -/
def alook (r : RaceD) (k : JVal) : Option Dict :=
  (r.find? (fun p => p.1 == k)).map (·.2)

/-- Python `race_dict[k] = v`: update in place or append. -/
def aset (r : RaceD) (k : JVal) (v : Dict) : RaceD :=
  match r with
  | [] => [(k, v)]
  | p :: rest => if p.1 == k then (k, v) :: rest else p :: aset rest k v

/-- The profession branch of `work_rrr` (zzz2rrr.py lines 242-253). -/
def convProfession (d : Dict) : Except String Dict := do
  let l1 ← asStrE (dgetD d "领域1" (.s ""))
  let l2 ← asStrE (dgetD d "领域2" (.s ""))
  pure [("名称", dgetD d "名称" (.s "")), ("原名", dgetD d "id" (.s "")),
    ("类型", .s "主职"), ("领域", .s (l1 ++ "+" ++ l2)),
    ("初始闪避值", dgetD d "起始闪避" (.s "")), ("初始生命点", dgetD d "起始生命" (.s "")),
    ("希望特性", dgetD d "希望特性" (.s "")), ("职业特性", dgetD d "职业特性" (.s "")),
    ("背景问题", dgetD d "背景问题" (.arr [])), ("关系问题", dgetD d "关系问题" (.arr [])),
    ("简介", dgetD d "简介" (.s ""))]

/-- The fresh merged ancestry record created on first sight of an ancestry
name (zzz2rrr.py lines 259-265). -/
def newRaceRec (rn : JVal) (d : Dict) : Except String Dict := do
  let nm ← asStrE (dgetD d "名称" (.s ""))
  let ef ← asStrE (dgetD d "效果" (.s ""))
  pure [("名称", rn), ("原名", .s ""), ("类型", .s "种族"),
    ("简介", dgetD d "简介" (.s "")), ("描述", .s (nm ++ "：" ++ ef))]

/-- The ancestry branch of `work_rrr` (zzz2rrr.py lines 254-266): merge the
record into `race_dict` keyed by ancestry name; nothing is emitted yet. -/
def mergeAncestry (race : RaceD) (d : Dict) : Except String RaceD :=
  let rn := dgetD d "种族" (.s "")
  match alook race rn with
  | some (q :: qs) => do
    let old ←
      match dget (q :: qs) "描述" with
      | some v => Except.ok v
      | none => Except.error "KeyError"
    let oldS ← asStrE old
    let nm ← asStrE (dgetD d "名称" (.s ""))
    let ef ← asStrE (dgetD d "效果" (.s ""))
    pure (aset race rn (dset (q :: qs) "描述" (.s (oldS ++ "\n" ++ nm ++ "：" ++ ef))))
  | _ => do
    let r1 ← newRaceRec rn d
    pure (aset race rn r1)

/-- The community branch of `work_rrr` (zzz2rrr.py lines 267-273). -/
def convCommunity (d : Dict) : Except String Dict := do
  let tn ← asStrE (dgetD d "特性" (.s ""))
  let td ← asStrE (dgetD d "描述" (.s ""))
  pure [("名称", dgetD d "名称" (.s "")), ("原名", dgetD d "id" (.s "")),
    ("类型", .s "社群"), ("简介", dgetD d "简介" (.s "")), ("性格", .s ""),
    ("描述", .s (tn ++ "：" ++ td))]

/-- The subclass branch of `work_rrr` (zzz2rrr.py lines 274-282). -/
def convSubclass (d : Dict) : Except String Dict := do
  let lvS ← asStrE (dgetD d "等级" (.s ""))
  let lv := tierToZzz lvS
  let sub ← asStrE (dgetD d "子职业" (.s ""))
  pure [("名称", .s (sub ++ "-" ++ lv)), ("原名", .s ""), ("类型", .s "子职"),
    ("主职", dgetD d "主职" (.s "")), ("等级", .s lv),
    ("施法属性", dgetD d "施法" (.s "")), ("描述", dgetD d "描述" (.s ""))]

/-- The domain-card branch of `work_rrr` (zzz2rrr.py lines 283-291). -/
def convDomain (d : Dict) : Except String Dict := do
  let lvl ← pyStrE (dgetD d "等级" (.s ""))
  let rc ← pyStrE (dgetD d "回想" (.s ""))
  pure [("名称", dgetD d "名称" (.s "")), ("原名", dgetD d "id" (.s "")),
    ("类型", .s "领域卡"), ("领域", dgetD d "领域" (.s "")),
    ("等级", .s lvl), ("属性", dgetD d "属性" (.s "")),
    ("回想", .s rc), ("描述", dgetD d "描述" (.s ""))]

/-- The variant branch of `work_rrr` (zzz2rrr.py lines 292-302): pop the
synthetic fields, rejoin the positionally keyed brief-info mapping with
`/` (dropping falsy values), then keep every truthy field. -/
def convVariant (d : Dict) : Except String Dict := do
  let d1 := dpop (dpop d "id") "imageUrl"
  let items ←
    match dget d1 "简略信息" with
    | some (.obj fs) => Except.ok fs
    | _ => Except.error "TypeError"
  let attr ← items.foldlM
    (fun acc p =>
      if truthy p.2 then do
        let vs ← pyStrE p.2
        pure (acc ++ vs ++ "/")
      else pure acc) ""
  let sm := if attr ≠ "" then String.mk attr.data.dropLast else ""
  let d2 := dset d1 "简略信息" (.s sm)
  pure (d2.foldl (fun acc p => if truthy p.2 then dset acc p.1 p.2 else acc) [])

/-- Appending the converted records of one category list to the output
(the `dict_out.append(dict_in)` accumulation of `work_rrr`). -/
def convAppend (conv : Dict → Except String Dict) (out : List Dict) (l : List Dict) :
    Except String (List Dict) :=
  l.foldlM (fun acc d => do pure (acc ++ [← conv d])) out

/-- The package loop of `work_rrr` (zzz2rrr.py lines 234-303): per package
the six category keys are visited in the fixed source order.  A missing or
empty category list is skipped by the `if da:` truthiness test, which
coincides with folding over the empty list. -/
def rrrRun : List ZOut → List Dict → RaceD → Except String (List Dict × RaceD)
  | [], out, race => .ok (out, race)
  | pkg :: rest, out, race => do
    let out1 ← convAppend convProfession out pkg.profession
    let race1 ← pkg.ancestry.foldlM mergeAncestry race
    let out2 ← convAppend convCommunity out1 pkg.community
    let out3 ← convAppend convSubclass out2 pkg.subclass
    let out4 ← convAppend convDomain out3 pkg.domain
    let out5 ← convAppend convVariant out4 pkg.variant
    rrrRun rest out5 race1

/-- `work_rrr` (zzz2rrr.py lines 231-308): convert every package, then
emit the merged ancestry records after all package-local records. -/
def work_rrr (data : List ZOut) : Except String (List Dict) := do
  let (out, race) ← rrrRun data [] []
  pure (out ++ race.map (·.2))

/-- One iteration of the record loop of the keyword extractor `work`
(zzz2keyword.py lines 43-61).  The second component is the post-call state
of the input record: the `pop` calls remove 原名, 背景问题, 关系问题 and
类型 from the caller's dict.  `kwCategory` is the category-label
computation (the 领域卡 special case appends the domain tag). -/
def kwCategory (typ : JVal) (d2 : Dict) : Except String JVal :=
  if typ = .s "领域卡" then do
    let ds ← asStrE (dgetD d2 "领域" (.s ""))
    pure (JVal.s ("领域卡-" ++ ds))
  else pure typ

def kwStep (d : Dict) : Except String (Dict × Dict) := do
  let kw := dgetD d "名称" (.s "")
  let d1 := dpop (dpop (dpop d "原名") "背景问题") "关系问题"
  let typ := dgetD d1 "类型" (.s "默认类型")
  let d2 := dpop d1 "类型"
  let typ2 ← kwCategory typ d2
  let desc ← d2.foldlM
    (fun acc p =>
      if p.1 = "名称" then pure acc
      else do
        let vs ← pyStrE p.2
        pure (acc ++ p.1 ++ ":" ++ vs ++ "\n")) ""
  pure ([("keyword", kw), ("category", typ2), ("description", .s (pyStrip desc)),
    ("display", .s "normal")], d2)

/-- The keyword extractor `work` (zzz2keyword.py lines 30-62) on a
list-rooted input (a dict root is first wrapped in a one-element list by
the source; the list case is the one modelled).  Returns the summary list
and the post-call state of the input records. -/
def work_keyword (data : List Dict) : Except String (List Dict × List Dict) :=
  data.foldlM
    (fun acc d => do
      let (dic, d') ← kwStep d
      pure (acc.1 ++ [dic], acc.2 ++ [d']))
    ([], [])

/-- Greedy ASCII-digit run at the head of a character list (the regex
fragment `\d+`). -/
def matchDigitsCh : List Char → (List Char × List Char)
  | [] => ([], [])
  | c :: rest =>
    if c.isDigit then
      let r := matchDigitsCh rest
      (c :: r.1, r.2)
    else ([], c :: rest)

/-- Attempt to match the regex `花费\s*(\d+)\s*恐惧点` anchored at the head
of the list, returning the digit group.  The greedy quantifiers never need
to backtrack here because a digit is not whitespace and `恐` is neither. -/
def fearAt (l : List Char) : Option (List Char) :=
  if l.take 2 = ['花', '费'] then
    let l1 := (l.drop 2).dropWhile isPyWs
    let r := matchDigitsCh l1
    if !r.1.isEmpty && (r.2.dropWhile isPyWs).take 3 = ['恐', '惧', '点'] then some r.1
    else none
  else none

/-- Python `re.search(r"花费\s*(\d+)\s*恐惧点", s)` (zzz2rink.py line 121):
the digit group of the leftmost match, if any. -/
def searchFear : List Char → Option (List Char)
  | [] => none
  | c :: rest =>
    match fearAt (c :: rest) with
    | some ds => some ds
    | none => searchFear rest

/-- One trait of `convert_environment` (zzz2rink.py lines 105-132). -/
def convTraitEnv (t : JVal) : Except String Dict := do
  match t with
  | .obj tr => do
    let trait_name := dgetD tr "名称" (.s "")
    let trait_en := dgetD tr "原名" (.s "")
    let nameV ←
      if truthy trait_en then do
        let a ← pyStrE trait_name
        let b ← pyStrE trait_en
        pure (JVal.s (a ++ " " ++ b))
      else pure trait_name
    let desc ← asStrE (dgetD tr "特性描述" (.s ""))
    let fcFields : Dict :=
      match searchFear desc.data with
      | some ds => [("fear", .b true), ("cost", .s (String.mk ds))]
      | none => [("fear", .b false), ("cost", .s "0")]
    pure ([("name", nameV), ("type", dgetD tr "类型" (.s ""))] ++ fcFields ++
      [("desc", .s desc), ("qs", dgetD tr "特性问题" (.s ""))])
  | _ => .error "TypeError"

/-- `convert_environment` (zzz2rink.py lines 79-134). -/
def convert_environment (src : Dict) : Except String Dict := do
  let traitsIn ←
    match dgetD src "特性" (.arr []) with
    | .arr l => Except.ok l
    | _ => Except.error "TypeError"
  let ts ← traitsIn.mapM convTraitEnv
  pure [("name", dgetD src "名称" (.s "")), ("nameEn", dgetD src "原文" (.s "")),
    ("rank", dgetD src "位阶" (.s "")), ("type", dgetD src "种类" (.s "")),
    ("description", dgetD src "简介" (.s "")), ("tendencies", dgetD src "趋向" (.s "")),
    ("difficulty", dgetD src "难度" (.s "")), ("enemies", dgetD src "潜在敌人" (.s "")),
    ("decoratorColor", .s "#1c538a"), ("highlightBgColor", .s "#852020"),
    ("highlightTextColor", .s "#ffffff"),
    ("imageSettings", .obj [("src", .s ""), ("width", .s "350"), ("height", .s "200"),
      ("transform", .s ""), ("hideBorder", .b false)]),
    ("traits", .arr (ts.map JVal.obj))]

/-- Category discriminator of a flat zzz record. -/
def typeOf (d : Dict) : JVal := dgetD d "类型" (.s "")

/-- The five recognized values of the 类型 discriminator; everything else
falls into the variant catch-all. -/
def knownTypes : List JVal := [.s "主职", .s "种族", .s "社群", .s "子职", .s "领域卡"]

/-- Names of the 主职 records of a run, in encounter order (the stream fed
into the `professions` deduplication list). -/
def profNames (data : List Dict) : List JVal :=
  data.filterMap (fun d => if typeOf d = .s "主职" then some (dgetD d "名称" (.s "")) else none)

/-- Names of the 种族 records of a run, in encounter order. -/
def ancNames (data : List Dict) : List JVal :=
  data.filterMap (fun d => if typeOf d = .s "种族" then some (dgetD d "名称" (.s "")) else none)

/-- Names of the 社群 records of a run, in encounter order. -/
def commNames (data : List Dict) : List JVal :=
  data.filterMap (fun d => if typeOf d = .s "社群" then some (dgetD d "名称" (.s "")) else none)

/-- Domain tags of the 领域卡 records of a run, in encounter order. -/
def domNames (data : List Dict) : List JVal :=
  data.filterMap (fun d => if typeOf d = .s "领域卡" then some (dgetD d "领域" (.s "")) else none)

/-- Type tags of the variant (unrecognized-type) records of a run, in
encounter order. -/
def varTypes (data : List Dict) : List JVal :=
  data.filterMap (fun d => if typeOf d ∈ knownTypes then none else some (typeOf d))

/-- All sub-records emitted by `work_zzz` into the six category lists. -/
def allEmitted (o : ZOut) : List Dict :=
  o.profession ++ o.ancestry ++ o.community ++ o.subclass ++ o.domain ++ o.variant

/-- The identifier slots of all emitted sub-records. -/
def idsOf (o : ZOut) : List (Option JVal) := (allEmitted o).map (fun r => dget r "id")

/-- Specification-side decomposition (spec section 4.4): the non-ancestry
records of one package, converted in the fixed category order. -/
def pkgNonAncestry (pkg : ZOut) : Except String (List Dict) := do
  let ps ← pkg.profession.mapM convProfession
  let cs ← pkg.community.mapM convCommunity
  let ss ← pkg.subclass.mapM convSubclass
  let ds ← pkg.domain.mapM convDomain
  let vs ← pkg.variant.mapM convVariant
  pure (ps ++ cs ++ ss ++ ds ++ vs)

/-- Specification-side decomposition: all non-ancestry records of the run,
in input encounter order. -/
def nonAncestryRecs (data : List ZOut) : Except String (List Dict) := do
  let ls ← data.mapM pkgNonAncestry
  pure ls.flatten

/-- The rrr ancestry records of the run, in encounter order. -/
def ancestryRecs (data : List ZOut) : List Dict := (data.map (·.ancestry)).flatten

/-- Specification-side decomposition: the merged ancestry accumulator the
run ends with. -/
def mergedRaces (data : List ZOut) : Except String RaceD :=
  (ancestryRecs data).foldlM mergeAncestry []

/-- Ancestry names of the run's rrr ancestry records, in encounter
order. -/
def raceNames (data : List ZOut) : List JVal :=
  (ancestryRecs data).map (fun d => dgetD d "种族" (.s ""))

theorem dget_nil (k : String) : dget [] k = none := rfl

theorem dget_cons (k1 : String) (v : JVal) (d : Dict) (k : String) :
    dget ((k1, v) :: d) k = if k1 == k then some v else dget d k := by
  by_cases h : k1 == k <;> simp [dget, List.find?, h]

theorem dgetD_of_dget {d : Dict} {k : String} {v : JVal} (v0 : JVal)
    (h : dget d k = some v) : dgetD d k v0 = v := by
  simp [dgetD, h]

theorem dgetD_of_none {d : Dict} {k : String} (v0 : JVal)
    (h : dget d k = none) : dgetD d k v0 = v0 := by
  simp [dgetD, h]

theorem stringMk_data (l : List Char) : (String.mk l).data = l := rfl

theorem stringMk_append (a b : List Char) :
    String.mk a ++ String.mk b = String.mk (a ++ b) := by
  apply String.ext
  simp

theorem splitCh_ne_nil (c : Char) (l : List Char) : splitCh c l ≠ [] := by
  cases l with
  | nil => simp [splitCh]
  | cons a rest =>
    simp only [splitCh]
    cases h : splitCh c rest with
    | nil => simp
    | cons x xs =>
      by_cases hac : a == c <;> simp [hac]

theorem joinCh_splitCh (c : Char) (l : List Char) : joinCh c (splitCh c l) = l := by
  induction l with
  | nil => rfl
  | cons a rest ih =>
    simp only [splitCh]
    cases h : splitCh c rest with
    | nil => exact absurd h (splitCh_ne_nil c rest)
    | cons x xs =>
      rw [h] at ih
      by_cases hac : a = c
      · have hb : (a == c) = true := by simp [hac]
        simp only [hb, if_pos]
        have h1 : joinCh c ([] :: x :: xs) = [] ++ c :: joinCh c (x :: xs) := rfl
        rw [h1, ih, hac]
        simp
      · have hb : (a == c) = false := by simp [hac]
        simp only [hb, Bool.false_eq_true, if_false]
        cases xs with
        | nil => simpa [joinCh] using ih
        | cons y ys =>
          have h1 : joinCh c ((a :: x) :: y :: ys) = (a :: x) ++ c :: joinCh c (y :: ys) := rfl
          have h2 : joinCh c (x :: y :: ys) = x ++ c :: joinCh c (y :: ys) := rfl
          rw [h2] at ih
          rw [h1]
          simp [← ih]

theorem splitCh_of_not_mem (c : Char) (l : List Char)
    (h : c ∉ l) : splitCh c l = [l] := by
  induction l with
  | nil => rfl
  | cons a rest ih =>
    simp only [List.mem_cons, not_or] at h
    have hb : (a == c) = false := by
      simp only [beq_eq_false_iff_ne, ne_eq]
      exact fun he => h.1 (he ▸ rfl)
    simp [splitCh, ih h.2, hb]

theorem two_le_splitCh_length (c : Char) (l : List Char)
    (h : c ∈ l) : 2 ≤ (splitCh c l).length := by
  induction l with
  | nil => simp at h
  | cons a rest ih =>
    simp only [splitCh]
    cases hs : splitCh c rest with
    | nil => exact absurd hs (splitCh_ne_nil c rest)
    | cons x xs =>
      by_cases hac : a = c
      · have hb : (a == c) = true := by simp [hac]
        simp [hb]
      · have hb : (a == c) = false := by simp [hac]
        simp only [List.mem_cons] at h
        have hmem : c ∈ rest := by
          rcases h with h1 | h2
          · exact absurd h1.symm hac
          · exact h2
        have := ih hmem
        rw [hs] at this
        simpa [hb] using this

theorem splitOnceCh_recons (c : Char) (l : List Char) (h : c ∈ l) :
    (splitOnceCh c l).1 ++ c :: (splitOnceCh c l).2 = l := by
  induction l with
  | nil => simp at h
  | cons a rest ih =>
    by_cases hac : a = c
    · have hb : (a == c) = true := by simp [hac]
      simp [splitOnceCh, hb, hac]
    · have hb : (a == c) = false := by simp [hac]
      simp only [List.mem_cons] at h
      have hmem : c ∈ rest := by
        rcases h with h1 | h2
        · exact absurd h1.symm hac
        · exact h2
      simp [splitOnceCh, hb, ih hmem]

theorem pyContains_iff (s : String) (c : Char) :
    pyContains s c = true ↔ c ∈ s.data := by
  simp [pyContains, List.contains, List.elem_iff]

theorem pySplit_pair {s : String} {c : Char} {a b : String}
    (h : pySplit s c = [a, b]) : a ++ String.mk [c] ++ b = s := by
  have hs : (splitCh c s.data).map (fun l => String.mk l) = [a, b] := h
  cases hsp : splitCh c s.data with
  | nil => exact absurd hsp (splitCh_ne_nil c s.data)
  | cons x xs =>
    rw [hsp] at hs
    cases xs with
    | nil => simp at hs
    | cons y ys =>
      cases ys with
      | nil =>
        simp only [List.map_cons, List.map_nil, List.cons.injEq, and_true] at hs
        obtain ⟨hax, hby⟩ := hs
        have hj := joinCh_splitCh c s.data
        rw [hsp] at hj
        have h1 : joinCh c [x, y] = x ++ c :: y := rfl
        rw [h1] at hj
        rw [← hax, ← hby]
        apply String.ext
        simpa using hj
      | cons z zs => simp at hs

theorem pyIntOfStr_of_digits {s : String} (h : pyIsDigit s = true) :
    pyIntOfStr s = some ((digitsToNat s.data : Nat) : Int) := by
  unfold pyIsDigit at h
  unfold pyIntOfStr
  cases hd : s.data with
  | nil => rw [hd] at h; simp at h
  | cons c rest =>
    rw [hd] at h
    simp only [Bool.and_eq_true, List.all_cons] at h
    have hcd : c.isDigit = true := h.2.1
    have hcne1 : c ≠ '+' := by
      intro he; rw [he] at hcd; simp [Char.isDigit] at hcd
    have hcne2 : c ≠ '-' := by
      intro he; rw [he] at hcd; simp [Char.isDigit] at hcd
    have hall : ((c :: rest).all fun x => x.isDigit) = true := by
      simp only [List.all_cons, hcd, Bool.true_and]
      exact h.2.2
    split
    · rename_i heq
      simp at heq
    · rename_i rest' heq
      rw [List.cons.injEq] at heq
      exact absurd heq.1 hcne1
    · rename_i rest' heq
      rw [List.cons.injEq] at heq
      exact absurd heq.1 hcne2
    · simp [hall]

theorem dget_none_of_not_mem {d : Dict} {k : String} (h : k ∉ dkeys d) :
    dget d k = none := by
  induction d with
  | nil => rfl
  | cons p rest ih =>
    simp only [dkeys, List.map_cons, List.mem_cons, not_or] at h
    have hb : (p.1 == k) = false := by
      simp only [beq_eq_false_iff_ne, ne_eq]
      exact fun he => h.1 (he ▸ rfl)
    obtain ⟨k1, v1⟩ := p
    rw [dget_cons, if_neg (by simpa using hb)]
    exact ih (by simpa [dkeys] using h.2)

theorem dget_dset_self (d : Dict) (k : String) (v : JVal) :
    dget (dset d k v) k = some v := by
  induction d with
  | nil => simp [dset, dget_cons]
  | cons p rest ih =>
    obtain ⟨k1, v1⟩ := p
    by_cases h : k1 == k
    · simp [dset, h, dget_cons]
    · simp only [dset, h, Bool.false_eq_true, if_false]
      rw [dget_cons, if_neg (by simpa using h)]
      exact ih

theorem dget_dset_ne (d : Dict) (k : String) (v : JVal) (k' : String) (h : k ≠ k') :
    dget (dset d k v) k' = dget d k' := by
  induction d with
  | nil =>
    simp only [dset]
    rw [dget_cons, if_neg (by simpa using h), dget_nil]
  | cons p rest ih =>
    obtain ⟨k1, v1⟩ := p
    by_cases h1 : k1 == k
    · have hk1 : k1 = k := by simpa using h1
      simp only [dset, h1, if_pos]
      rw [dget_cons, dget_cons, if_neg (by simpa using h), hk1,
        if_neg (by simpa using h)]
    · simp only [dset, h1, Bool.false_eq_true, if_false]
      rw [dget_cons, dget_cons, ih]

theorem mem_dkeys_dset {d : Dict} {k : String} {v : JVal} {x : String}
    (h : x ∈ dkeys (dset d k v)) : x ∈ dkeys d ∨ x = k := by
  induction d with
  | nil => simpa [dset, dkeys] using h
  | cons p rest ih =>
    obtain ⟨k1, v1⟩ := p
    by_cases h1 : k1 == k
    · have hk1 : k1 = k := by simpa using h1
      simp only [dset, h1, if_pos, dkeys, List.map_cons, List.mem_cons] at h ⊢
      rcases h with h | h
      · right; exact h ▸ rfl
      · left; right; exact h
    · simp only [dset, h1, Bool.false_eq_true, if_false, dkeys, List.map_cons,
        List.mem_cons] at h ⊢
      rcases h with h | h
      · left; left; exact h
      · rcases ih h with h2 | h2
        · left; right; exact h2
        · right; exact h2

theorem keysNodup_dset (d : Dict) (k : String) (v : JVal) (h : keysNodup d) :
    keysNodup (dset d k v) := by
  induction d with
  | nil => simp [dset, keysNodup, dkeys]
  | cons p rest ih =>
    obtain ⟨k1, v1⟩ := p
    simp only [keysNodup, dkeys, List.map_cons, List.nodup_cons] at h
    by_cases h1 : k1 == k
    · have hk1 : k1 = k := by simpa using h1
      simp only [dset, h1, if_pos, keysNodup, dkeys, List.map_cons, List.nodup_cons]
      exact ⟨hk1 ▸ h.1, h.2⟩
    · simp only [dset, h1, Bool.false_eq_true, if_false, keysNodup, dkeys,
        List.map_cons, List.nodup_cons]
      refine ⟨fun hm => ?_, ih h.2⟩
      rcases mem_dkeys_dset hm with h2 | h2
      · exact h.1 h2
      · exact absurd h2 (by simpa using h1)

theorem dget_dupdate (base d : Dict) (k : String) (h : keysNodup d) :
    dget (dupdate base d) k = (dget d k).or (dget base k) := by
  induction d generalizing base with
  | nil => simp [dupdate, dget_nil, Option.or]
  | cons p rest ih =>
    obtain ⟨k1, v1⟩ := p
    simp only [keysNodup, dkeys, List.map_cons, List.nodup_cons] at h
    have hstep : dupdate base ((k1, v1) :: rest) = dupdate (dset base k1 v1) rest := rfl
    rw [hstep, ih _ h.2]
    by_cases hk : k1 = k
    · subst hk
      have hnone : dget rest k1 = none := dget_none_of_not_mem (by simpa [dkeys] using h.1)
      rw [hnone, dget_cons, if_pos (by simp), dget_dset_self]
      simp [Option.or]
    · rw [dget_dset_ne _ _ _ _ hk, dget_cons, if_neg (by simpa using hk)]

theorem keysNodup_dupdate (base d : Dict) (h : keysNodup base) :
    keysNodup (dupdate base d) := by
  induction d generalizing base with
  | nil => exact h
  | cons p rest ih =>
    obtain ⟨k1, v1⟩ := p
    exact ih _ (keysNodup_dset _ _ _ h)

theorem dget_dpop_ne (d : Dict) (k k' : String) (h : k ≠ k') :
    dget (dpop d k) k' = dget d k' := by
  induction d with
  | nil => rfl
  | cons p rest ih =>
    obtain ⟨k1, v1⟩ := p
    by_cases h1 : k1 == k
    · have hk1 : k1 = k := by simpa using h1
      simp only [dpop, List.eraseP_cons, h1, cond_true]
      rw [dget_cons, if_neg (by simp [hk1]; exact h)]
    · simp only [dpop, List.eraseP_cons, h1, cond_false]
      rw [dget_cons, dget_cons]
      by_cases h2 : k1 == k'
      · simp [h2]
      · simp only [h2, Bool.false_eq_true, if_false]
        exact ih

theorem keysNodup_dpop (d : Dict) (k : String) (h : keysNodup d) :
    keysNodup (dpop d k) := by
  have hsub : List.Sublist (dpop d k) d := List.eraseP_sublist d
  exact List.Nodup.sublist (hsub.map Prod.fst) h

theorem stringMk_data_self (s : String) : String.mk s.data = s := rfl

theorem intToStr_ofNat (n : Nat) : intToStr ((n : Nat) : Int) = natToStr n := by
  unfold intToStr
  rw [if_neg (by simp)]
  simp

theorem strFold_data (ps : List String) (acc : String) :
    (ps.foldl (fun a p => a ++ p ++ "/") acc).data
      = (ps.map String.data).foldl (fun a p => a ++ p ++ ['/']) acc.data := by
  induction ps generalizing acc with
  | nil => rfl
  | cons p rest ih =>
    have h1 : (p :: rest).foldl (fun a p => a ++ p ++ "/") acc
        = rest.foldl (fun a p => a ++ p ++ "/") (acc ++ p ++ "/") := rfl
    rw [h1, ih]
    simp

theorem charSlashFold (xs : List (List Char)) (x : List Char) :
    ∀ acc : List Char, (x :: xs).foldl (fun a p => a ++ p ++ ['/']) acc
      = acc ++ joinCh '/' (x :: xs) ++ ['/'] := by
  induction xs generalizing x with
  | nil => intro acc; simp [joinCh]
  | cons y ys ih =>
    intro acc
    have h1 : (x :: y :: ys).foldl (fun a p => a ++ p ++ ['/']) acc
        = (y :: ys).foldl (fun a p => a ++ p ++ ['/']) (acc ++ x ++ ['/']) := rfl
    rw [h1, ih]
    have h2 : joinCh '/' (x :: y :: ys) = x ++ '/' :: joinCh '/' (y :: ys) := rfl
    rw [h2]
    simp

@[simp]
theorem exc_bind_ok {α β : Type} (a : α) (f : α → Except String β) :
    (Except.ok a >>= f) = f a := rfl

@[simp]
theorem exc_bind_err {α β : Type} (e : String) (f : α → Except String β) :
    ((Except.error e : Except String α) >>= f) = Except.error e := rfl

@[simp]
theorem exc_pure {α : Type} (a : α) : (pure a : Except String α) = Except.ok a := rfl

@[simp]
theorem exc_map_ok {α β : Type} (a : α) (f : α → β) :
    (Except.ok a : Except String α).map f = Except.ok (f a) := rfl

@[simp]
theorem exc_map_err {α β : Type} (e : String) (f : α → β) :
    (Except.error e : Except String α).map f = Except.error e := rfl

theorem dget_truthyFold (d2 : Dict) (k : String) :
    ∀ acc : Dict, keysNodup d2 → (∀ x ∈ dkeys d2, x ∉ dkeys acc) →
    dget (d2.foldl (fun acc p => if truthy p.2 then dset acc p.1 p.2 else acc) acc) k
      = (match dget d2 k with
         | some v => if truthy v then some v else none
         | none => dget acc k) := by
  induction d2 with
  | nil => intro acc _ _; simp [dget_nil]
  | cons p rest ih =>
    intro acc hnd hdisj
    obtain ⟨k1, v1⟩ := p
    have hdk : dkeys ((k1, v1) :: rest) = k1 :: dkeys rest := rfl
    simp only [keysNodup, hdk, List.nodup_cons] at hnd
    have hk1rest : k1 ∉ dkeys rest := hnd.1
    have hk1acc : k1 ∉ dkeys acc := hdisj k1 (hdk ▸ List.mem_cons_self k1 (dkeys rest))
    have hdisj' : ∀ x ∈ dkeys rest,
        x ∉ dkeys (if truthy v1 then dset acc k1 v1 else acc) := by
      intro x hx hmem
      have hxl : x ∈ dkeys ((k1, v1) :: rest) := hdk ▸ List.mem_cons_of_mem k1 hx
      by_cases ht : truthy v1
      · rw [if_pos ht] at hmem
        rcases mem_dkeys_dset hmem with h2 | h2
        · exact hdisj x hxl h2
        · exact hk1rest (h2 ▸ hx)
      · rw [if_neg ht] at hmem
        exact hdisj x hxl hmem
    have hfold : ((k1, v1) :: rest).foldl
        (fun acc p => if truthy p.2 then dset acc p.1 p.2 else acc) acc
        = rest.foldl (fun acc p => if truthy p.2 then dset acc p.1 p.2 else acc)
            (if truthy v1 then dset acc k1 v1 else acc) := rfl
    rw [hfold, ih _ hnd.2 hdisj', dget_cons]
    by_cases hk : k1 = k
    · subst hk
      have h1 : dget rest k1 = none := dget_none_of_not_mem hk1rest
      by_cases ht : truthy v1
      · simp [ht, h1, dget_dset_self]
      · simp [ht, h1, dget_none_of_not_mem hk1acc]
    · have hbk : (k1 == k) = false := by simpa using hk
      cases hrk : dget rest k with
      | none =>
        by_cases ht : truthy v1
        · simp [ht, hrk, hbk, dget_dset_ne acc k1 v1 k hk]
        · simp [ht, hrk, hbk]
      | some v => simp [hrk, hbk]

theorem attrFold_ok (items : List (String × JVal)) :
    ∀ (ps : List String), items.map Prod.snd = ps.map JVal.s →
    (∀ p ∈ ps, p ≠ "") → ∀ acc : String,
    items.foldlM
      (fun acc p =>
        if truthy p.2 then do
          let vs ← pyStrE p.2
          pure (acc ++ vs ++ "/")
        else pure acc) acc
      = Except.ok (ps.foldl (fun a p => a ++ p ++ "/") acc) := by
  induction items with
  | nil =>
    intro ps hmap _ acc
    cases ps with
    | nil => rfl
    | cons p ps' => simp at hmap
  | cons it rest ih =>
    intro ps hmap hne acc
    cases ps with
    | nil => simp at hmap
    | cons p ps' =>
      simp only [List.map_cons, List.cons.injEq] at hmap
      have hp : p ≠ "" := hne p (by simp)
      have ht : truthy it.2 = true := by rw [hmap.1]; simpa [truthy] using hp
      have hstep : (it :: rest).foldlM
          (fun acc p =>
            if truthy p.2 then do
              let vs ← pyStrE p.2
              pure (acc ++ vs ++ "/")
            else pure acc) acc
          = ((if truthy it.2 then do
              let vs ← pyStrE it.2
              pure (acc ++ vs ++ "/")
            else pure acc) >>= fun a' => rest.foldlM
              (fun acc p =>
                if truthy p.2 then do
                  let vs ← pyStrE p.2
                  pure (acc ++ vs ++ "/")
                else pure acc) a') := by
        simp [List.foldlM_cons]
      rw [hstep, if_pos ht, hmap.1]
      have hps : pyStrE (JVal.s p) = .ok p := rfl
      rw [hps]
      simp only [exc_bind_ok, exc_pure]
      have := ih ps' hmap.2 (fun q hq => hne q (by simp [hq])) (acc ++ p ++ "/")
      simpa using this

theorem asStrE_ok {v : JVal} {s : String} (h : asStrE v = .ok s) : v = .s s := by
  cases v <;> simp [asStrE] at h
  exact h ▸ rfl

theorem mapM_ok_forall2 {α β : Type} (f : α → Except String β) :
    ∀ (l : List α) (l' : List β), l.mapM f = .ok l' →
      List.Forall₂ (fun a b => f a = .ok b) l l' := by
  intro l
  induction l with
  | nil =>
    intro l' h
    simp only [List.mapM_nil] at h
    cases h' : l' with
    | nil => exact List.Forall₂.nil
    | cons x xs => rw [h'] at h; simp at h
  | cons a rest ih =>
    intro l' h
    rw [List.mapM_cons] at h
    cases hf : f a with
    | error e => rw [hf] at h; simp at h
    | ok b =>
      rw [hf] at h
      cases hm : rest.mapM f with
      | error e => rw [hm] at h; simp at h
      | ok bs =>
        rw [hm] at h
        simp only [exc_bind_ok, exc_pure, Except.ok.injEq] at h
        rw [← h]
        exact List.Forall₂.cons hf (ih bs hm)

/-- C6: in `convert_environment`, every trait whose 特性描述 matches the
pattern `花费\s*(\d+)\s*恐惧点` yields an output trait with `fear = true`
and `cost` equal to the digit group of the leftmost match, and every trait
whose description has no such match yields `fear = false`, `cost = "0"`. -/
theorem c6_environment_fear_cost (src : Dict) (ts : List JVal) (dest : Dict)
    (hts : dgetD src "特性" (.arr []) = .arr ts)
    (hok : convert_environment src = .ok dest) :
    ∃ outTs : List Dict,
      dget dest "traits" = some (.arr (outTs.map JVal.obj)) ∧
      List.Forall₂ (fun t t' =>
        ∃ tr s, t = JVal.obj tr ∧ dgetD tr "特性描述" (.s "") = .s s ∧
          ((∃ ds, searchFear s.data = some ds ∧
              dget t' "fear" = some (.b true) ∧ dget t' "cost" = some (.s (String.mk ds))) ∨
            (searchFear s.data = none ∧
              dget t' "fear" = some (.b false) ∧ dget t' "cost" = some (.s "0"))))
        ts outTs := by
  unfold convert_environment at hok
  rw [hts] at hok
  simp only [exc_bind_ok] at hok
  cases hm : ts.mapM convTraitEnv with
  | error e => rw [hm] at hok; simp at hok
  | ok outTs =>
    rw [hm] at hok
    simp only [exc_bind_ok, exc_pure, Except.ok.injEq] at hok
    refine ⟨outTs, ?_, ?_⟩
    · rw [← hok]
      simp [dget_cons]
    · refine List.Forall₂.imp ?_ (mapM_ok_forall2 convTraitEnv ts outTs hm)
      intro t t' h
      cases t with
      | s v => simp [convTraitEnv] at h
      | i v => simp [convTraitEnv] at h
      | b v => simp [convTraitEnv] at h
      | arr l => simp [convTraitEnv] at h
      | obj tr =>
        simp only [convTraitEnv] at h
        by_cases htn : truthy (dgetD tr "原名" (.s ""))
        · rw [if_pos htn] at h
          cases ha : pyStrE (dgetD tr "名称" (.s "")) with
          | error e => rw [ha] at h; simp at h
          | ok a =>
            rw [ha] at h
            cases hb : pyStrE (dgetD tr "原名" (.s "")) with
            | error e => rw [hb] at h; simp at h
            | ok b =>
              rw [hb] at h
              simp only [exc_bind_ok] at h
              cases hd : asStrE (dgetD tr "特性描述" (.s "")) with
              | error e => rw [hd] at h; simp at h
              | ok s =>
                rw [hd] at h
                simp only [exc_bind_ok, exc_pure, Except.ok.injEq] at h
                refine ⟨tr, s, rfl, asStrE_ok hd, ?_⟩
                cases hsf : searchFear s.data with
                | some ds =>
                  rw [hsf] at h
                  refine Or.inl ⟨ds, rfl, ?_, ?_⟩ <;> rw [← h] <;> simp [dget_cons]
                | none =>
                  rw [hsf] at h
                  refine Or.inr ⟨rfl, ?_, ?_⟩ <;> rw [← h] <;> simp [dget_cons]
        · rw [if_neg htn] at h
          simp only [exc_bind_ok, exc_pure] at h
          cases hd : asStrE (dgetD tr "特性描述" (.s "")) with
          | error e => rw [hd] at h; simp at h
          | ok s =>
            rw [hd] at h
            simp only [exc_bind_ok, exc_pure, Except.ok.injEq] at h
            refine ⟨tr, s, rfl, asStrE_ok hd, ?_⟩
            cases hsf : searchFear s.data with
            | some ds =>
              rw [hsf] at h
              refine Or.inl ⟨ds, rfl, ?_, ?_⟩ <;> rw [← h] <;> simp [dget_cons]
            | none =>
              rw [hsf] at h
              refine Or.inr ⟨rfl, ?_, ?_⟩ <;> rw [← h] <;> simp [dget_cons]

theorem c6_environment_fear_cost_witness :
    ∃ outTs : List Dict,
      dget [("name", .s "城"), ("nameEn", .s ""), ("rank", .s ""), ("type", .s ""),
        ("description", .s ""), ("tendencies", .s ""), ("difficulty", .s ""),
        ("enemies", .s ""), ("decoratorColor", .s "#1c538a"),
        ("highlightBgColor", .s "#852020"), ("highlightTextColor", .s "#ffffff"),
        ("imageSettings", .obj [("src", .s ""), ("width", .s "350"), ("height", .s "200"),
          ("transform", .s ""), ("hideBorder", .b false)]),
        ("traits", .arr [(.obj [("name", .s "压迫"), ("type", .s ""), ("fear", .b true),
            ("cost", .s "2"), ("desc", .s "花费2恐惧点触发效果"), ("qs", .s "")]),
          (.obj [("name", .s "平静"), ("type", .s ""), ("fear", .b false),
            ("cost", .s "0"), ("desc", .s "没有"), ("qs", .s "")])])]
        "traits" = some (.arr (outTs.map JVal.obj)) ∧
      List.Forall₂ (fun t t' =>
        ∃ tr s, t = JVal.obj tr ∧ dgetD tr "特性描述" (.s "") = .s s ∧
          ((∃ ds, searchFear s.data = some ds ∧
              dget t' "fear" = some (.b true) ∧ dget t' "cost" = some (.s (String.mk ds))) ∨
            (searchFear s.data = none ∧
              dget t' "fear" = some (.b false) ∧ dget t' "cost" = some (.s "0"))))
        [.obj [("名称", .s "压迫"), ("特性描述", .s "花费2恐惧点触发效果")],
         .obj [("名称", .s "平静"), ("特性描述", .s "没有")]] outTs :=
  c6_environment_fear_cost
    [("名称", .s "城"),
     ("特性", .arr [.obj [("名称", .s "压迫"), ("特性描述", .s "花费2恐惧点触发效果")],
        .obj [("名称", .s "平静"), ("特性描述", .s "没有")]])]
    [.obj [("名称", .s "压迫"), ("特性描述", .s "花费2恐惧点触发效果")],
     .obj [("名称", .s "平静"), ("特性描述", .s "没有")]]
    _ rfl rfl

theorem exc_bind_eq_ok {α β : Type} {m : Except String α} {f : α → Except String β}
    {b : β} (h : (m >>= f) = .ok b) : ∃ a, m = .ok a ∧ f a = .ok b := by
  cases m with
  | error e => simp at h
  | ok a => exact ⟨a, rfl, by simpa using h⟩

theorem kwStep_post {d : Dict} {pr : Dict × Dict} (h : kwStep d = .ok pr) :
    pr.2 = dpop (dpop (dpop (dpop d "原名") "背景问题") "关系问题") "类型" := by
  unfold kwStep at h
  obtain ⟨t2, hT, h⟩ := exc_bind_eq_ok h
  obtain ⟨ds, hD, h⟩ := exc_bind_eq_ok h
  simp only [exc_pure, Except.ok.injEq] at h
  rw [← h]

theorem kwFold_post (data : List Dict) :
    ∀ (acc : List Dict × List Dict) (lst post : List Dict),
    data.foldlM
      (fun acc d => do
        let (dic, d') ← kwStep d
        pure (acc.1 ++ [dic], acc.2 ++ [d'])) acc = .ok (lst, post) →
    post = acc.2 ++ data.map
      (fun d => dpop (dpop (dpop (dpop d "原名") "背景问题") "关系问题") "类型") := by
  induction data with
  | nil =>
    intro acc lst post h
    simp only [List.foldlM_nil] at h
    simp only [exc_pure, Except.ok.injEq] at h
    rw [h]
    simp
  | cons d rest ih =>
    intro acc lst post h
    rw [List.foldlM_cons] at h
    obtain ⟨acc', hf, hcont⟩ := exc_bind_eq_ok h
    obtain ⟨pr, hk, hp⟩ := exc_bind_eq_ok hf
    have hacc' : acc' = (acc.1 ++ [pr.1], acc.2 ++ [pr.2]) := by
      obtain ⟨dic, d'⟩ := pr
      simp only [exc_pure, Except.ok.injEq] at hp
      exact hp.symm
    have := ih acc' lst post hcont
    rw [this, hacc', kwStep_post hk]
    simp

/-- C10: the keyword extractor `work` mutates every input record in
place: after a successful call each record has lost its 原名, 背景问题,
关系问题 and 类型 keys (when present), so the caller's data is altered as
a side effect of producing the summary list. -/
theorem c10_keyword_mutation (data : List Dict) (lst post : List Dict)
    (hok : work_keyword data = .ok (lst, post)) :
    post = data.map
      (fun d => dpop (dpop (dpop (dpop d "原名") "背景问题") "关系问题") "类型") := by
  have := kwFold_post data ([], []) lst post hok
  simpa using this

theorem c10_keyword_mutation_witness :
    [[("名称", JVal.s "火焰领域"), ("领域", .s "奥秘"), ("描述", .s "燃烧")]] =
      [[("名称", JVal.s "火焰领域"), ("类型", .s "领域卡"), ("领域", .s "奥秘"),
        ("原名", .s "xx"), ("描述", .s "燃烧")]].map
        (fun d => dpop (dpop (dpop (dpop d "原名") "背景问题") "关系问题") "类型") :=
  c10_keyword_mutation
    [[("名称", JVal.s "火焰领域"), ("类型", .s "领域卡"), ("领域", .s "奥秘"),
      ("原名", .s "xx"), ("描述", .s "燃烧")]]
    [[("keyword", JVal.s "火焰领域"), ("category", .s "领域卡-奥秘"),
      ("description", .s "领域:奥秘\n描述:燃烧"), ("display", .s "normal")]]
    [[("名称", JVal.s "火焰领域"), ("领域", .s "奥秘"), ("描述", .s "燃烧")]]
    rfl

theorem pySplit_ne_nil (s : String) (c : Char) : ∃ x xs, pySplit s c = x :: xs := by
  unfold pySplit
  cases h : splitCh c s.data with
  | nil => exact absurd h (splitCh_ne_nil c s.data)
  | cons x xs => exact ⟨String.mk x, xs.map (fun l => String.mk l), by simp⟩

theorem pySplit_single {s : String} {c : Char} (h : pyContains s c = false) :
    pySplit s c = [s] := by
  have hm : c ∉ s.data := by
    intro hmem
    rw [(pyContains_iff s c).mpr hmem] at h
    simp at h
  unfold pySplit
  rw [splitCh_of_not_mem c s.data hm]
  simp [stringMk_data_self]

theorem pySplit_two_of_contains {s : String} {c : Char} (h : pyContains s c = true) :
    ∃ a b rest, pySplit s c = a :: b :: rest := by
  have hm : c ∈ s.data := (pyContains_iff s c).mp h
  have hlen := two_le_splitCh_length c s.data hm
  unfold pySplit
  cases h1 : splitCh c s.data with
  | nil => exact absurd h1 (splitCh_ne_nil c s.data)
  | cons x xs =>
    cases xs with
    | nil => rw [h1] at hlen; simp at hlen
    | cons y ys =>
      exact ⟨String.mk x, String.mk y, ys.map (fun l => String.mk l), by simp⟩

theorem zzz_ancestry_error {d : Dict} {desc : String} (u : Nat → String) (o : ZOut) (n : Nat)
    (hty : dget d "类型" = some (.s "种族"))
    (hdesc : dget d "描述" = some (.s desc))
    (hlines : ((pySplit (pyReplace (pyReplace desc ":" "：") "\n\n" "\n") '\n').filter
        (fun s => pyContains s '：')).length < 2) :
    zzzStep u o n d = .error "IndexError" := by
  unfold zzzStep
  rw [dgetD_of_dget (JVal.s "") hty, dgetD_of_dget (JVal.s "") hdesc]
  rw [if_neg (by decide), if_pos rfl]
  have hstr : asStrE (JVal.s desc) = .ok desc := rfl
  rw [hstr]
  simp only [exc_bind_ok]
  obtain ⟨f0, fs, hfe⟩ := pySplit_ne_nil (pyReplace (pyReplace desc ":" "：") "\n\n" "\n") '\n'
  rw [hfe]
  rw [hfe] at hlines
  have hix0 : pyIndex (f0 :: fs) 0 = .ok f0 := rfl
  rw [hix0]
  simp only [exc_bind_ok]
  by_cases hc0 : pyContains f0 '：' = true
  · have hge : ∃ a b rest, pySplit f0 '：' = a :: b :: rest := pySplit_two_of_contains hc0
    obtain ⟨a, b, rest, hab⟩ := hge
    rw [hab]
    have h0 : pyIndex (a :: b :: rest) 0 = .ok a := rfl
    have h1 : pyIndex (a :: b :: rest) 1 = .ok b := rfl
    rw [h0, h1]
    simp only [exc_bind_ok]
    cases hfs : fs with
    | nil =>
      have hno : pyIndex [f0] 1 = .error "IndexError" := rfl
      rw [hno]
      simp only [exc_bind_err]
    | cons f1 fs' =>
      rw [hfs] at hlines
      have hc1 : pyContains f1 '：' = false := by
        cases hc1' : pyContains f1 '：' with
        | false => rfl
        | true =>
          simp only [List.filter_cons, hc0, hc1', if_pos, List.length_cons] at hlines
          omega
      have hix1 : pyIndex (f0 :: f1 :: fs') 1 = .ok f1 := rfl
      rw [hix1]
      simp only [exc_bind_ok]
      rw [pySplit_single hc1]
      have h2 : pyIndex [f1] 0 = .ok f1 := rfl
      have h3 : pyIndex [f1] 1 = .error "IndexError" := rfl
      rw [h2, h3]
      simp only [exc_bind_ok, exc_bind_err]
  · have hc0' : pyContains f0 '：' = false := by
      cases h' : pyContains f0 '：' with
      | false => rfl
      | true => exact absurd h' hc0
    rw [pySplit_single hc0']
    have h2 : pyIndex [f0] 0 = .ok f0 := rfl
    have h3 : pyIndex [f0] 1 = .error "IndexError" := rfl
    rw [h2, h3]
    simp only [exc_bind_ok, exc_bind_err]

theorem zzz_prof_hp_error {d : Dict} {t : String} (u : Nat → String) (o : ZOut) (n : Nat)
    (hty : dget d "类型" = some (.s "主职"))
    (hhp : dget d "初始生命点" = some (.s t))
    (hbad : pyIntOfStr t = none) :
    ∃ e, zzzStep u o n d = .error e := by
  unfold zzzStep
  rw [dgetD_of_dget (JVal.s "") hty, dgetD_of_dget (JVal.s "") hhp]
  rw [if_pos rfl]
  cases hdom : asStrE (dgetD d "领域" (.s "")) with
  | error e => exact ⟨e, by simp only [exc_bind_err]⟩
  | ok dom =>
    refine ⟨"ValueError", ?_⟩
    simp only [exc_bind_ok]
    have : pyIntE (JVal.s t) = .error "ValueError" := by simp [pyIntE, hbad]
    rw [this]
    simp only [exc_bind_err]

theorem zzz_prof_ev_error {d : Dict} {t : String} (u : Nat → String) (o : ZOut) (n : Nat)
    (hty : dget d "类型" = some (.s "主职"))
    (hev : dget d "初始闪避值" = some (.s t))
    (hbad : pyIntOfStr t = none) :
    ∃ e, zzzStep u o n d = .error e := by
  unfold zzzStep
  rw [dgetD_of_dget (JVal.s "") hty, dgetD_of_dget (JVal.s "") hev]
  rw [if_pos rfl]
  cases hdom : asStrE (dgetD d "领域" (.s "")) with
  | error e => exact ⟨e, by simp only [exc_bind_err]⟩
  | ok dom =>
    simp only [exc_bind_ok]
    cases hhp : pyIntE (dgetD d "初始生命点" (.s "")) with
    | error e => exact ⟨e, by simp only [exc_bind_err]⟩
    | ok hp =>
      refine ⟨"ValueError", ?_⟩
      simp only [exc_bind_ok]
      have : pyIntE (JVal.s t) = .error "ValueError" := by simp [pyIntE, hbad]
      rw [this]
      simp only [exc_bind_err]

theorem zzz_domain_lvl_error {d : Dict} {t : String} (u : Nat → String) (o : ZOut) (n : Nat)
    (hty : dget d "类型" = some (.s "领域卡"))
    (hlvl : dget d "等级" = some (.s t))
    (hbad : pyIntOfStr t = none) :
    zzzStep u o n d = .error "ValueError" := by
  unfold zzzStep
  rw [dgetD_of_dget (JVal.s "") hty, dgetD_of_dget (JVal.s "") hlvl]
  rw [if_neg (by decide), if_neg (by decide), if_neg (by decide), if_neg (by decide),
    if_pos rfl]
  have : pyIntE (JVal.s t) = .error "ValueError" := by simp [pyIntE, hbad]
  rw [this]
  simp only [exc_bind_err]

theorem work_zzz_singleton_error {d : Dict} {e : String} (u : Nat → String) (n : Nat)
    (h : zzzStep u zzzInit n d = .error e) : work_zzz [d] u n = .error e := by
  unfold work_zzz
  simp only [List.foldlM_cons, List.foldlM_nil, h, exc_bind_err]

/-- C4: the transformation edge cases are unguarded.  An ancestry (种族)
record whose 描述 holds fewer than two newline-delimited colon-containing
feature lines makes `work_zzz` raise an unhandled IndexError, and integer
coercion of a non-numeric 初始生命点 or 初始闪避值 (主职 branch) or 等级
(领域卡 branch) raises instead of degrading gracefully. -/
theorem c4_unguarded_failures (u : Nat → String) (n : Nat) :
    (∀ (d : Dict) (desc : String), dget d "类型" = some (.s "种族") →
      dget d "描述" = some (.s desc) →
      ((pySplit (pyReplace (pyReplace desc ":" "：") "\n\n" "\n") '\n').filter
        (fun s => pyContains s '：')).length < 2 →
      work_zzz [d] u n = .error "IndexError") ∧
    (∀ (d : Dict) (t : String), dget d "类型" = some (.s "主职") →
      dget d "初始生命点" = some (.s t) → pyIntOfStr t = none →
      ∃ e, work_zzz [d] u n = .error e) ∧
    (∀ (d : Dict) (t : String), dget d "类型" = some (.s "主职") →
      dget d "初始闪避值" = some (.s t) → pyIntOfStr t = none →
      ∃ e, work_zzz [d] u n = .error e) ∧
    (∀ (d : Dict) (t : String), dget d "类型" = some (.s "领域卡") →
      dget d "等级" = some (.s t) → pyIntOfStr t = none →
      work_zzz [d] u n = .error "ValueError") := by
  refine ⟨?_, ?_, ?_, ?_⟩
  · intro d desc hty hdesc hlines
    exact work_zzz_singleton_error u n (zzz_ancestry_error u zzzInit n hty hdesc hlines)
  · intro d t hty hhp hbad
    obtain ⟨e, he⟩ := zzz_prof_hp_error u zzzInit n hty hhp hbad
    exact ⟨e, work_zzz_singleton_error u n he⟩
  · intro d t hty hev hbad
    obtain ⟨e, he⟩ := zzz_prof_ev_error u zzzInit n hty hev hbad
    exact ⟨e, work_zzz_singleton_error u n he⟩
  · intro d t hty hlvl hbad
    exact work_zzz_singleton_error u n (zzz_domain_lvl_error u zzzInit n hty hlvl hbad)

theorem c4_unguarded_failures_witness :
    work_zzz [[("类型", JVal.s "种族"), ("名称", .s "精灵"), ("描述", .s "敏锐：效果一")]]
      (fun k => natToStr k) 0 = .error "IndexError" ∧
    (∃ e, work_zzz [[("类型", JVal.s "主职"), ("初始生命点", .s "abc")]]
      (fun k => natToStr k) 0 = .error e) ∧
    (∃ e, work_zzz [[("类型", JVal.s "主职"), ("初始生命点", .s "5"), ("初始闪避值", .s "xy")]]
      (fun k => natToStr k) 0 = .error e) ∧
    work_zzz [[("类型", JVal.s "领域卡"), ("等级", .s "三")]]
      (fun k => natToStr k) 0 = .error "ValueError" := by
  obtain ⟨h1, h2, h3, h4⟩ := c4_unguarded_failures (fun k => natToStr k) 0
  exact ⟨h1 _ "敏锐：效果一" rfl rfl (by decide),
         h2 _ "abc" rfl rfl (by decide),
         h3 _ "xy" rfl rfl (by decide),
         h4 _ "三" rfl rfl (by decide)⟩

theorem zzzStep_post_known {d : Dict} {u : Nat → String} {o : ZOut} {n : Nat}
    {tr : ZOut × Nat × Dict} (hk : typeOf d ∈ knownTypes)
    (h : zzzStep u o n d = .ok tr) : tr.2.2 = d := by
  unfold zzzStep at h
  simp only [knownTypes, typeOf, List.mem_cons, List.not_mem_nil, or_false] at hk
  rcases hk with h1 | h1 | h1 | h1 | h1
  · rw [h1, if_pos rfl] at h
    obtain ⟨dom, _, h⟩ := exc_bind_eq_ok h
    obtain ⟨hp, _, h⟩ := exc_bind_eq_ok h
    obtain ⟨ev, _, h⟩ := exc_bind_eq_ok h
    simp only [exc_pure, Except.ok.injEq] at h
    rw [← h]
  · rw [h1, if_neg (by decide), if_pos rfl] at h
    obtain ⟨desc, _, h⟩ := exc_bind_eq_ok h
    obtain ⟨l0, _, h⟩ := exc_bind_eq_ok h
    obtain ⟨a0, _, h⟩ := exc_bind_eq_ok h
    obtain ⟨b0, _, h⟩ := exc_bind_eq_ok h
    obtain ⟨l1, _, h⟩ := exc_bind_eq_ok h
    obtain ⟨a1, _, h⟩ := exc_bind_eq_ok h
    obtain ⟨b1, _, h⟩ := exc_bind_eq_ok h
    simp only [exc_pure, Except.ok.injEq] at h
    rw [← h]
  · rw [h1, if_neg (by decide), if_neg (by decide), if_pos rfl] at h
    obtain ⟨fs, _, h⟩ := exc_bind_eq_ok h
    simp only [exc_pure, Except.ok.injEq] at h
    rw [← h]
  · rw [h1, if_neg (by decide), if_neg (by decide), if_neg (by decide), if_pos rfl] at h
    obtain ⟨nm, _, h⟩ := exc_bind_eq_ok h
    obtain ⟨lvS, _, h⟩ := exc_bind_eq_ok h
    simp only [exc_pure, Except.ok.injEq] at h
    rw [← h]
  · rw [h1, if_neg (by decide), if_neg (by decide), if_neg (by decide), if_neg (by decide),
      if_pos rfl] at h
    obtain ⟨lvl, _, h⟩ := exc_bind_eq_ok h
    obtain ⟨recallS, _, h⟩ := exc_bind_eq_ok h
    obtain ⟨rv, _, h⟩ := exc_bind_eq_ok h
    simp only [exc_pure, Except.ok.injEq] at h
    rw [← h]

theorem zzzFold_post (u : Nat → String) (data : List Dict) :
    ∀ (st : ZOut × Nat × List Dict) (out : ZOut) (n' : Nat) (post : List Dict),
    data.foldlM
      (fun acc d => do
        let (o', n', d') ← zzzStep u acc.1 acc.2.1 d
        pure (o', n', acc.2.2 ++ [d'])) st = .ok (out, n', post) →
    (∀ d ∈ data, typeOf d ∈ knownTypes) →
    post = st.2.2 ++ data := by
  induction data with
  | nil =>
    intro st out n' post h _
    simp only [List.foldlM_nil, exc_pure, Except.ok.injEq] at h
    rw [h]
    simp
  | cons d rest ih =>
    intro st out n' post h hk
    rw [List.foldlM_cons] at h
    obtain ⟨acc', hf, hcont⟩ := exc_bind_eq_ok h
    obtain ⟨tr, hz, hp⟩ := exc_bind_eq_ok hf
    obtain ⟨o2, n2, d2⟩ := tr
    simp only [exc_pure, Except.ok.injEq] at hp
    have hd2 : d2 = d := zzzStep_post_known (hk d (by simp)) hz
    have := ih acc' out n' post hcont (fun x hx => hk x (by simp [hx]))
    rw [this, ← hp, hd2]
    simp

/-- C5 (amended): for input lists whose records all carry one of the five
recognized 类型 values, a successful `work_zzz` run leaves the input
records unchanged; records of unrecognized type (the variant branch) are
instead mutated in place, which refutes the claim as stated. -/
theorem c5_no_mutation_amended (data : List Dict) (u : Nat → String) (n : Nat)
    (out : ZOut) (n' : Nat) (post : List Dict)
    (hok : work_zzz data u n = .ok (out, n', post))
    (hknown : ∀ d ∈ data, typeOf d ∈ knownTypes) :
    post = data := by
  have := zzzFold_post u data (zzzInit, n, []) out n' post hok hknown
  simpa using this

theorem c5_no_mutation_counterexample :
    ∃ (out : ZOut) (n' : Nat) (post : List Dict),
      work_zzz [[("类型", JVal.s "武器"), ("简略信息", .s "近战/物理"), ("特性", .s "重型")]]
        (fun k => natToStr k) 0 = .ok (out, n', post) ∧
      post ≠ [[("类型", JVal.s "武器"), ("简略信息", .s "近战/物理"), ("特性", .s "重型")]] :=
  ⟨_, _, _, rfl, by decide⟩

theorem c5_no_mutation_amended_witness :
    ∃ (out : ZOut) (n' : Nat) (post : List Dict),
      work_zzz [[("类型", JVal.s "社群"), ("名称", .s "N"), ("描述", .s "勇气：描述")]]
        (fun k => natToStr k) 0 = .ok (out, n', post) ∧
      post = [[("类型", JVal.s "社群"), ("名称", .s "N"), ("描述", .s "勇气：描述")]] := by
  refine ⟨_, _, _, rfl, ?_⟩
  exact c5_no_mutation_amended _ (fun k => natToStr k) 0 _ _ _ rfl (by decide)

theorem zzzRecall_ok (recS : String) :
    zzzRecall recS = .ok (if pyIsDigit recS then JVal.i (digitsToNat recS.data) else .s recS) := by
  unfold zzzRecall
  by_cases h : pyIsDigit recS = true
  · rw [if_pos h, if_pos h, pyIntOfStr_of_digits h]
    rfl
  · rw [if_neg h, if_neg h]
    rfl

theorem work_zzz_singleton_ok {d : Dict} {u : Nat → String} {n : Nat}
    {tr : ZOut × Nat × Dict} (h : zzzStep u zzzInit n d = .ok tr) :
    work_zzz [d] u n = .ok (tr.1, tr.2.1, [tr.2.2]) := by
  obtain ⟨o2, n2, d2⟩ := tr
  unfold work_zzz
  simp only [List.foldlM_cons, List.foldlM_nil, h, exc_bind_ok, exc_pure]
  rfl

theorem convAppend_nil (conv : Dict → Except String Dict) (out : List Dict) :
    convAppend conv out [] = .ok out := rfl

theorem convAppend_singleton (conv : Dict → Except String Dict) (out : List Dict)
    (r0 : Dict) :
    convAppend conv out [r0] = (conv r0).map (fun x => out ++ [x]) := by
  unfold convAppend
  rw [List.foldlM_cons]
  cases h : conv r0 <;> simp [h, List.foldlM_nil]

theorem work_rrr_single (pkg : ZOut) :
    work_rrr [pkg] = (do
      let out1 ← convAppend convProfession [] pkg.profession
      let race1 ← pkg.ancestry.foldlM mergeAncestry []
      let out2 ← convAppend convCommunity out1 pkg.community
      let out3 ← convAppend convSubclass out2 pkg.subclass
      let out4 ← convAppend convDomain out3 pkg.domain
      let out5 ← convAppend convVariant out4 pkg.variant
      pure (out5 ++ race1.map (·.2))) := by
  unfold work_rrr rrrRun
  cases h1 : convAppend convProfession [] pkg.profession <;> simp only [h1, exc_bind_ok, exc_bind_err]
  cases h2 : pkg.ancestry.foldlM mergeAncestry [] <;> simp only [h2, exc_bind_ok, exc_bind_err]
  cases h3 : convAppend convCommunity _ pkg.community <;> simp only [h3, exc_bind_ok, exc_bind_err]
  cases h4 : convAppend convSubclass _ pkg.subclass <;> simp only [h4, exc_bind_ok, exc_bind_err]
  cases h5 : convAppend convDomain _ pkg.domain <;> simp only [h5, exc_bind_ok, exc_bind_err]
  cases h6 : convAppend convVariant _ pkg.variant <;> simp only [h6, exc_bind_ok, exc_bind_err]
  rfl

theorem zzzStep_domaincard {d : Dict} (u : Nat → String) (o : ZOut) (n : Nat)
    {lv : String} {klv : Int} {recS : String}
    (hty : dget d "类型" = some (.s "领域卡"))
    (hlv : dget d "等级" = some (.s lv))
    (hklv : pyIntOfStr lv = some klv)
    (hrec : dget d "回想" = some (.s recS)) :
    zzzStep u o n d = .ok
      ({ o with
          domains := insertNew o.domains (dgetD d "领域" (.s "")),
          domain := o.domain ++
            [[("id", .s (u n)), ("名称", dgetD d "名称" (.s "")),
              ("领域", dgetD d "领域" (.s "")), ("等级", .i klv),
              ("属性", dgetD d "属性" (.s "")),
              ("回想", if pyIsDigit recS then JVal.i (digitsToNat recS.data) else .s recS),
              ("描述", dgetD d "描述" (.s "")), ("imageUrl", .s "")]] }, n + 1, d) := by
  unfold zzzStep
  rw [dgetD_of_dget (JVal.s "") hty, dgetD_of_dget (JVal.s "") hlv,
    dgetD_of_dget (JVal.s "") hrec]
  rw [if_neg (by decide), if_neg (by decide), if_neg (by decide), if_neg (by decide),
    if_pos rfl]
  have h1 : pyIntE (JVal.s lv) = .ok klv := by simp [pyIntE, hklv]
  have h2 : asStrE (JVal.s recS) = .ok recS := rfl
  rw [h1, h2]
  simp only [exc_bind_ok]
  rw [zzzRecall_ok]
  simp only [exc_bind_ok, exc_pure]
  rfl

theorem convDomain_on (vid v1 v2 : JVal) (klv : Int) (v3 recV v4 : JVal)
    {rs : String} (hrs : pyStrE recV = .ok rs) :
    convDomain [("id", vid), ("名称", v1), ("领域", v2), ("等级", .i klv),
      ("属性", v3), ("回想", recV), ("描述", v4), ("imageUrl", .s "")]
      = .ok [("名称", v1), ("原名", vid), ("类型", .s "领域卡"), ("领域", v2),
        ("等级", .s (intToStr klv)), ("属性", v3), ("回想", .s rs), ("描述", v4)] := by
  unfold convDomain
  simp [dgetD, dget_cons, hrs,
    (show pyStrE (JVal.i klv) = .ok (intToStr klv) from rfl)]

theorem work_rrr_profession_single (pkg : ZOut) {r0 r : Dict}
    (hanc : pkg.ancestry = []) (hcomm : pkg.community = [])
    (hsub : pkg.subclass = []) (hdm : pkg.domain = []) (hvar : pkg.variant = [])
    (hprof : pkg.profession = [r0]) (hconv : convProfession r0 = .ok r) :
    work_rrr [pkg] = .ok [r] := by
  rw [work_rrr_single, hprof, hanc, hcomm, hsub, hdm, hvar]
  simp [convAppend_nil, convAppend_singleton, hconv, List.foldlM_nil]

theorem work_rrr_community_single (pkg : ZOut) {r0 r : Dict}
    (hprof : pkg.profession = []) (hanc : pkg.ancestry = [])
    (hsub : pkg.subclass = []) (hdm : pkg.domain = []) (hvar : pkg.variant = [])
    (hcomm : pkg.community = [r0]) (hconv : convCommunity r0 = .ok r) :
    work_rrr [pkg] = .ok [r] := by
  rw [work_rrr_single, hprof, hanc, hcomm, hsub, hdm, hvar]
  simp [convAppend_nil, convAppend_singleton, hconv, List.foldlM_nil]

theorem work_rrr_subclass_single (pkg : ZOut) {r0 r : Dict}
    (hprof : pkg.profession = []) (hanc : pkg.ancestry = [])
    (hcomm : pkg.community = []) (hdm : pkg.domain = []) (hvar : pkg.variant = [])
    (hsub : pkg.subclass = [r0]) (hconv : convSubclass r0 = .ok r) :
    work_rrr [pkg] = .ok [r] := by
  rw [work_rrr_single, hprof, hanc, hcomm, hsub, hdm, hvar]
  simp [convAppend_nil, convAppend_singleton, hconv, List.foldlM_nil]

theorem work_rrr_domain_single (pkg : ZOut) {r0 r : Dict}
    (hprof : pkg.profession = []) (hanc : pkg.ancestry = [])
    (hcomm : pkg.community = []) (hsub : pkg.subclass = []) (hvar : pkg.variant = [])
    (hdm : pkg.domain = [r0]) (hconv : convDomain r0 = .ok r) :
    work_rrr [pkg] = .ok [r] := by
  rw [work_rrr_single, hprof, hanc, hcomm, hsub, hdm, hvar]
  simp [convAppend_nil, convAppend_singleton, hconv, List.foldlM_nil]

theorem work_rrr_variant_single (pkg : ZOut) {r0 r : Dict}
    (hprof : pkg.profession = []) (hanc : pkg.ancestry = [])
    (hcomm : pkg.community = []) (hsub : pkg.subclass = []) (hdm : pkg.domain = [])
    (hvar : pkg.variant = [r0]) (hconv : convVariant r0 = .ok r) :
    work_rrr [pkg] = .ok [r] := by
  rw [work_rrr_single, hprof, hanc, hcomm, hsub, hdm, hvar]
  simp [convAppend_nil, convAppend_singleton, hconv, List.foldlM_nil]

/-- C3 (amended): for a 领域卡 record, a digit-only 回想 string is coerced
to its integer value by `work_zzz` and rendered back by `work_rrr` as the
canonical decimal string, which equals the input exactly when the input
has no leading zeros; a 回想 string with any non-digit character passes
through both directions unchanged. -/
theorem c3_recall_roundtrip_amended (d : Dict) (u : Nat → String) (n : Nat)
    (lv recS : String) (klv : Int)
    (hty : dget d "类型" = some (.s "领域卡"))
    (hlv : dget d "等级" = some (.s lv))
    (hklv : pyIntOfStr lv = some klv)
    (hrec : dget d "回想" = some (.s recS)) :
    ∃ (pkg : ZOut) (n' : Nat) (post : List Dict) (rdom r : Dict),
      work_zzz [d] u n = .ok (pkg, n', post) ∧
      pkg.domain = [rdom] ∧
      work_rrr [pkg] = .ok [r] ∧
      (pyIsDigit recS = true →
        dget rdom "回想" = some (.i (digitsToNat recS.data)) ∧
        dget r "回想" = some (.s (natToStr (digitsToNat recS.data)))) ∧
      (pyIsDigit recS = false →
        dget rdom "回想" = some (.s recS) ∧ dget r "回想" = some (.s recS)) ∧
      (natToStr (digitsToNat recS.data) = recS →
        dget r "回想" = some (.s recS)) := by
  have hz := zzzStep_domaincard u zzzInit n hty hlv hklv hrec
  by_cases hdig : pyIsDigit recS = true
  · rw [if_pos hdig] at hz
    have hw := work_zzz_singleton_ok hz
    have hcd := convDomain_on (JVal.s (u n)) (dgetD d "名称" (.s ""))
      (dgetD d "领域" (.s "")) klv (dgetD d "属性" (.s ""))
      (JVal.i (digitsToNat recS.data)) (dgetD d "描述" (.s ""))
      (rfl : pyStrE (JVal.i (digitsToNat recS.data))
        = .ok (intToStr (digitsToNat recS.data)))
    refine ⟨_, _, _, _, _, hw, rfl,
      work_rrr_domain_single _ rfl rfl rfl rfl rfl rfl hcd, ?_, ?_, ?_⟩
    · intro _
      constructor
      · simp [dget_cons]
      · simp [dget_cons, intToStr_ofNat]
    · intro h
      rw [h] at hdig
      simp at hdig
    · intro hc
      have h2 : intToStr ((digitsToNat recS.data : Nat) : Int) = recS := by
        rw [intToStr_ofNat]
        exact hc
      simp [dget_cons, h2]
  · rw [if_neg hdig] at hz
    have hdig' : pyIsDigit recS = false := by
      cases h' : pyIsDigit recS with
      | false => rfl
      | true => exact absurd h' hdig
    have hw := work_zzz_singleton_ok hz
    have hcd := convDomain_on (JVal.s (u n)) (dgetD d "名称" (.s ""))
      (dgetD d "领域" (.s "")) klv (dgetD d "属性" (.s ""))
      (JVal.s recS) (dgetD d "描述" (.s ""))
      (rfl : pyStrE (JVal.s recS) = .ok recS)
    refine ⟨_, _, _, _, _, hw, rfl,
      work_rrr_domain_single _ rfl rfl rfl rfl rfl rfl hcd, ?_, ?_, ?_⟩
    · intro h
      exact absurd h hdig
    · intro _
      exact ⟨by simp [dget_cons], by simp [dget_cons]⟩
    · intro _
      simp [dget_cons]

/-- C3 counterexample: the digit string "07" does not round-trip; the
composition returns the canonicalized "7". -/
theorem c3_recall_counterexample :
    ∃ (pkg : ZOut) (n' : Nat) (post : List Dict) (r : Dict),
      work_zzz [[("类型", JVal.s "领域卡"), ("名称", .s "卡"), ("领域", .s "奥秘"),
        ("等级", .s "3"), ("属性", .s "法术"), ("回想", .s "07"), ("描述", .s "D")]]
        (fun k => natToStr k) 0 = .ok (pkg, n', post) ∧
      work_rrr [pkg] = .ok [r] ∧
      dget [("类型", JVal.s "领域卡"), ("名称", .s "卡"), ("领域", .s "奥秘"),
        ("等级", .s "3"), ("属性", .s "法术"), ("回想", .s "07"), ("描述", .s "D")]
        "回想" = some (.s "07") ∧
      dget r "回想" = some (.s "7") ∧ JVal.s "7" ≠ JVal.s "07" :=
  ⟨_, _, _, _, rfl, rfl, rfl, rfl, by decide⟩

theorem c3_recall_roundtrip_amended_witness :
    ∃ (pkg : ZOut) (n' : Nat) (post : List Dict) (rdom r : Dict),
      work_zzz [[("类型", JVal.s "领域卡"), ("名称", .s "卡"), ("领域", .s "奥秘"),
        ("等级", .s "3"), ("属性", .s "法术"), ("回想", .s "23"), ("描述", .s "D")]]
        (fun k => natToStr k) 0 = .ok (pkg, n', post) ∧
      pkg.domain = [rdom] ∧
      work_rrr [pkg] = .ok [r] ∧
      (pyIsDigit "23" = true →
        dget rdom "回想" = some (.i (digitsToNat "23".data)) ∧
        dget r "回想" = some (.s (natToStr (digitsToNat "23".data)))) ∧
      (pyIsDigit "23" = false →
        dget rdom "回想" = some (.s "23") ∧ dget r "回想" = some (.s "23")) ∧
      (natToStr (digitsToNat "23".data) = "23" →
        dget r "回想" = some (.s "23")) :=
  c3_recall_roundtrip_amended
    [("类型", JVal.s "领域卡"), ("名称", .s "卡"), ("领域", .s "奥秘"),
      ("等级", .s "3"), ("属性", .s "法术"), ("回想", .s "23"), ("描述", .s "D")]
    (fun k => natToStr k) 0 "3" "23" 3 rfl rfl (by decide) rfl

theorem zzzStep_variant {d : Dict} (u : Nat → String) (o : ZOut) (n : Nat)
    {tyV : JVal} {info : String}
    (hty : dget d "类型" = some tyV)
    (htyk : tyV ∉ knownTypes)
    (hinfo : dget d "简略信息" = some (.s info))
    (hne0 : info ≠ "") :
    zzzStep u o n d = .ok
      ({ o with
          variants := insertNew o.variants tyV,
          variant := o.variant ++
            [dupdate [("id", .s (u n)), ("名称", dgetD d "名称" (.s ""))]
              (dset (dset d "效果" (dgetD d "特性" (.s ""))) "简略信息"
                (.obj ((pySplit info '/').enum.map
                  (fun p => ("item" ++ natToStr p.1, JVal.s p.2)))))] },
        n + 1,
        dset (dset d "效果" (dgetD d "特性" (.s ""))) "简略信息"
          (.obj ((pySplit info '/').enum.map
            (fun p => ("item" ++ natToStr p.1, JVal.s p.2))))) := by
  simp only [knownTypes, List.mem_cons, List.not_mem_nil, or_false, not_or] at htyk
  obtain ⟨ht1, ht2, ht3, ht4, ht5⟩ := htyk
  unfold zzzStep
  rw [dgetD_of_dget (JVal.s "") hty, dgetD_of_dget (JVal.s "") hinfo]
  rw [if_neg ht1, if_neg ht2, if_neg ht3, if_neg ht4, if_neg ht5]
  have htr : truthy (JVal.s info) = true := by simpa [truthy] using hne0
  have hvp : variantParts (JVal.s info) = .ok (pySplit info '/') := by
    unfold variantParts
    rw [if_pos htr]
    rfl
  simp only [hvp, exc_bind_ok, exc_pure]

theorem items_map_snd (ps : List String) :
    ((ps.enum.map (fun p => ("item" ++ natToStr p.1, JVal.s p.2))).map Prod.snd)
      = ps.map JVal.s := by
  rw [List.map_map]
  have h1 : (Prod.snd ∘ fun p : Nat × String => ("item" ++ natToStr p.1, JVal.s p.2))
      = (JVal.s ∘ Prod.snd) := rfl
  rw [h1, ← List.map_map, List.enum_map_snd]

theorem pySplit_map_data (s : String) (c : Char) :
    (pySplit s c).map String.data = splitCh c s.data := by
  unfold pySplit
  rw [List.map_map]
  have h1 : (String.data ∘ fun l => String.mk l) = id := rfl
  rw [h1, List.map_id]

/-- C2: a variant record whose 简略信息 is a `/`-delimited sequence of
non-empty parts is mapped by `work_zzz` to the positionally keyed
`item0, item1, …` mapping, and `work_rrr` rejoins that mapping with `/`
(dropping falsy values) back to the original string. -/
theorem c2_variant_brief_info_roundtrip (d : Dict) (u : Nat → String) (n : Nat)
    (tyV : JVal) (info : String)
    (hnd : keysNodup d)
    (hty : dget d "类型" = some tyV)
    (htyk : tyV ∉ knownTypes)
    (hinfo : dget d "简略信息" = some (.s info))
    (hne : ∀ p ∈ pySplit info '/', p ≠ "") :
    ∃ (pkg : ZOut) (n' : Nat) (post : List Dict) (rv r : Dict),
      work_zzz [d] u n = .ok (pkg, n', post) ∧
      pkg.variant = [rv] ∧
      dget rv "简略信息" = some (.obj ((pySplit info '/').enum.map
        (fun p => ("item" ++ natToStr p.1, JVal.s p.2)))) ∧
      work_rrr [pkg] = .ok [r] ∧
      dget r "简略信息" = some (.s info) := by
  have hne0 : info ≠ "" := by
    intro h
    subst h
    exact hne "" (by decide) rfl
  have hz := zzzStep_variant u zzzInit n hty htyk hinfo hne0
  have hw := work_zzz_singleton_ok hz
  set ps : List String := pySplit info '/' with hps
  set items : Dict := ps.enum.map (fun p => ("item" ++ natToStr p.1, JVal.s p.2)) with hitems
  set d' : Dict := dset (dset d "效果" (dgetD d "特性" (.s ""))) "简略信息" (.obj items)
    with hd'
  set rv : Dict := dupdate [("id", .s (u n)), ("名称", dgetD d "名称" (.s ""))] d' with hrv
  have hndd' : keysNodup d' := keysNodup_dset _ _ _ (keysNodup_dset _ _ _ hnd)
  have hndrv : keysNodup rv := keysNodup_dupdate _ _ (by simp [keysNodup, dkeys])
  have hrvget : dget rv "简略信息" = some (.obj items) := by
    rw [hrv, dget_dupdate _ _ _ hndd', hd', dget_dset_self]
    rfl
  -- evaluate convVariant on rv
  have hd1get : dget (dpop (dpop rv "id") "imageUrl") "简略信息" = some (.obj items) := by
    rw [dget_dpop_ne _ _ _ (by decide), dget_dpop_ne _ _ _ (by decide), hrvget]
  have hmap : items.map Prod.snd = ps.map JVal.s := items_map_snd ps
  have hfold := attrFold_ok items ps hmap hne ""
  set attr : String := ps.foldl (fun a p => a ++ p ++ "/") "" with hattr
  obtain ⟨p0, ps', hps'⟩ := pySplit_ne_nil info '/'
  have hattr_data : attr.data = info.data ++ ['/'] := by
    rw [hattr, strFold_data]
    have hmd : ps.map String.data = splitCh '/' info.data := pySplit_map_data info '/'
    rw [hmd]
    cases hsp : splitCh '/' info.data with
    | nil => exact absurd hsp (splitCh_ne_nil '/' info.data)
    | cons x xs =>
      rw [charSlashFold xs x]
      have hj : joinCh '/' (x :: xs) = info.data := by
        rw [← hsp]
        exact joinCh_splitCh '/' info.data
      rw [hj]
      simp
  have hattrne : attr ≠ "" := by
    intro h
    have : attr.data = [] := by rw [h]
    rw [hattr_data] at this
    simp at this
  have hsm : String.mk attr.data.dropLast = info := by
    rw [hattr_data, List.dropLast_concat]
  set d2 : Dict := dset (dpop (dpop rv "id") "imageUrl") "简略信息" (.s info) with hd2
  have hnd2 : keysNodup d2 :=
    keysNodup_dset _ _ _ (keysNodup_dpop _ _ (keysNodup_dpop _ _ hndrv))
  have houtget : dget (d2.foldl (fun acc p => if truthy p.2 then dset acc p.1 p.2 else acc) [])
      "简略信息" = some (.s info) := by
    rw [dget_truthyFold d2 "简略信息" [] hnd2 (by intro x hx; simp [dkeys])]
    rw [hd2, dget_dset_self]
    simp [truthy, hne0]
  have hcv : convVariant rv = .ok
      (d2.foldl (fun acc p => if truthy p.2 then dset acc p.1 p.2 else acc) []) := by
    unfold convVariant
    simp only [hd1get, exc_bind_ok]
    rw [hfold]
    simp only [exc_bind_ok]
    rw [if_pos hattrne, hsm]
    rfl
  refine ⟨_, _, _, rv, _, hw, rfl, hrvget,
    work_rrr_variant_single _ rfl rfl rfl rfl rfl rfl hcv, houtget⟩

theorem c2_variant_brief_info_roundtrip_witness :
    ∃ (pkg : ZOut) (n' : Nat) (post : List Dict) (rv r : Dict),
      work_zzz [[("类型", JVal.s "武器"), ("名称", .s "战斧"),
        ("简略信息", .s "近战/物理/3点"), ("特性", .s "重型")]]
        (fun k => natToStr k) 0 = .ok (pkg, n', post) ∧
      pkg.variant = [rv] ∧
      dget rv "简略信息" = some (.obj ((pySplit "近战/物理/3点" '/').enum.map
        (fun p => ("item" ++ natToStr p.1, JVal.s p.2)))) ∧
      work_rrr [pkg] = .ok [r] ∧
      dget r "简略信息" = some (.s "近战/物理/3点") :=
  c2_variant_brief_info_roundtrip
    [("类型", JVal.s "武器"), ("名称", .s "战斧"),
      ("简略信息", .s "近战/物理/3点"), ("特性", .s "重型")]
    (fun k => natToStr k) 0 (.s "武器") "近战/物理/3点"
    (by simp [keysNodup, dkeys]) rfl (by decide) rfl (by decide)

theorem zzzStep_profession {d : Dict} (u : Nat → String) (o : ZOut) (n : Nat)
    {dom : String} {hp ev : Int}
    (hty : dget d "类型" = some (.s "主职"))
    (hdom : dget d "领域" = some (.s dom))
    (hhp : dget d "初始生命点" = some (.i hp))
    (hev : dget d "初始闪避值" = some (.i ev)) :
    zzzStep u o n d = .ok
      ({ o with
          professions := insertNew o.professions (dgetD d "名称" (.s "")),
          profession := o.profession ++
            [[("id", .s (u n)), ("名称", dgetD d "名称" (.s "")),
              ("领域1", .s ((pySplit (normDomain dom) '+').getD 0 "")),
              ("领域2", .s ((pySplit (normDomain dom) '+').getD 1 "")),
              ("起始生命", .i hp), ("起始闪避", .i ev),
              ("起始物品", dgetD d "初始物品" (.s " ")),
              ("简介", dgetD d "简介" (.s "N/A")),
              ("希望特性", dgetD d "希望特性" (.s "")),
              ("职业特性", dgetD d "职业特性" (.s "")),
              ("imageUrl", .s "")]] }, n + 1, d) := by
  unfold zzzStep
  rw [dgetD_of_dget (JVal.s "") hty, dgetD_of_dget (JVal.s "") hdom,
    dgetD_of_dget (JVal.s "") hhp, dgetD_of_dget (JVal.s "") hev]
  rw [if_pos rfl]
  have h1 : asStrE (JVal.s dom) = .ok dom := rfl
  have h2 : pyIntE (JVal.i hp) = .ok hp := rfl
  have h3 : pyIntE (JVal.i ev) = .ok ev := rfl
  rw [h1, h2, h3]
  simp only [exc_bind_ok, exc_pure]
  rfl

theorem convProfession_on (vid vn : JVal) (l1 l2 : String) (hp ev vit vji vxi vzh : JVal) :
    convProfession [("id", vid), ("名称", vn), ("领域1", .s l1), ("领域2", .s l2),
      ("起始生命", hp), ("起始闪避", ev), ("起始物品", vit), ("简介", vji),
      ("希望特性", vxi), ("职业特性", vzh), ("imageUrl", .s "")]
      = .ok [("名称", vn), ("原名", vid), ("类型", .s "主职"),
        ("领域", .s (l1 ++ "+" ++ l2)), ("初始闪避值", ev), ("初始生命点", hp),
        ("希望特性", vxi), ("职业特性", vzh), ("背景问题", .arr []),
        ("关系问题", .arr []), ("简介", vji)] := by
  unfold convProfession
  simp [dgetD, dget_cons, dget_nil, asStrE]

theorem zzzStep_community {d : Dict} (u : Nat → String) (o : ZOut) (n : Nat)
    {desc : String}
    (hty : dget d "类型" = some (.s "社群"))
    (hdesc : dget d "描述" = some (.s desc))
    (hcol : pyContains desc '：' = true) :
    zzzStep u o n d = .ok
      ({ o with
          communities := insertNew o.communities (dgetD d "名称" (.s "")),
          community := o.community ++
            [[("id", .s (u n)), ("名称", dgetD d "名称" (.s "")),
              ("特性", .s (String.mk (splitOnceCh '：' desc.data).1)),
              ("简介", dgetD d "简介" (.s "N/A")),
              ("描述", .s (String.mk (splitOnceCh '：' desc.data).2)),
              ("imageUrl", .s "")]] }, n + 1, d) := by
  unfold zzzStep
  rw [dgetD_of_dget (JVal.s "") hty, dgetD_of_dget (JVal.s "") hdesc]
  rw [if_neg (by decide), if_neg (by decide), if_pos rfl]
  have h1 : asStrE (JVal.s desc) = .ok desc := rfl
  rw [h1]
  simp only [exc_bind_ok, exc_pure, hcol, if_pos]
  rfl

theorem convCommunity_on (vid vn : JVal) (a b : List Char) (vji : JVal) :
    convCommunity [("id", vid), ("名称", vn), ("特性", .s (String.mk a)),
      ("简介", vji), ("描述", .s (String.mk b)), ("imageUrl", .s "")]
      = .ok [("名称", vn), ("原名", vid), ("类型", .s "社群"), ("简介", vji),
        ("性格", .s ""), ("描述", .s (String.mk a ++ "：" ++ String.mk b))] := by
  unfold convCommunity
  simp [dgetD, dget_cons, asStrE]

theorem zzzStep_subclass {d : Dict} (u : Nat → String) (o : ZOut) (n : Nat)
    {nm tier : String}
    (hty : dget d "类型" = some (.s "子职"))
    (hnm : dget d "名称" = some (.s nm))
    (hlv : dget d "等级" = some (.s tier)) :
    zzzStep u o n d = .ok
      ({ o with
          subclass := o.subclass ++
            [[("id", .s (u n)), ("名称", .s nm),
              ("描述", dgetD d "描述" (.s "")), ("主职", dgetD d "主职" (.s "")),
              ("子职业", .s (if pyContains nm '-' then (pySplit nm '-').getD 0 "" else nm)),
              ("等级", .s (tierToRrr tier)),
              ("施法", if truthy (dgetD d "施法属性" (.s "")) then dgetD d "施法属性" (.s "")
                else JVal.s "不可施法"),
              ("imageUrl", .s "")]] }, n + 1, d) := by
  unfold zzzStep
  rw [dgetD_of_dget (JVal.s "") hty, dgetD_of_dget (JVal.s "") hnm,
    dgetD_of_dget (JVal.s "") hlv]
  rw [if_neg (by decide), if_neg (by decide), if_neg (by decide), if_pos rfl]
  have h1 : asStrE (JVal.s nm) = .ok nm := rfl
  have h2 : asStrE (JVal.s tier) = .ok tier := rfl
  rw [h1, h2]
  simp only [exc_bind_ok, exc_pure]
  rfl

theorem convSubclass_on (vid nmv v1 v2 : JVal) (sub lvr : String) (castv : JVal) :
    convSubclass [("id", vid), ("名称", nmv), ("描述", v1), ("主职", v2),
      ("子职业", .s sub), ("等级", .s lvr), ("施法", castv), ("imageUrl", .s "")]
      = .ok [("名称", .s (sub ++ "-" ++ tierToZzz lvr)), ("原名", .s ""),
        ("类型", .s "子职"), ("主职", v2), ("等级", .s (tierToZzz lvr)),
        ("施法属性", castv), ("描述", v1)] := by
  unfold convSubclass
  simp [dgetD, dget_cons, asStrE]

/-- C1 (amended): for flat records of type 主职, 社群, 子职 or 领域卡 whose
carried fields are present and already in the normal form the mapping
produces (normalized two-part domain string and integer stats for 主职,
colon-containing 描述 for 社群, 名称 of the form 子职业-等级 with a
standard tier label and non-empty 施法属性 for 子职, canonical numeric
等级 and canonical-or-non-digit 回想 for 领域卡), the composition
`work_rrr` after `work_zzz` restores every carried field; fields outside
the carried set are dropped, the synthetic identifier lands in 原名
(empty for 子职), and the bookkeeping fields 背景问题/关系问题/性格 are
added. -/
theorem c1_roundtrip_except_id (u : Nat → String) (n : Nat) :
    (∀ (d : Dict) (dom d1 d2 : String) (hp ev : Int),
      dget d "类型" = some (.s "主职") →
      dget d "领域" = some (.s dom) → normDomain dom = dom →
      pySplit dom '+' = [d1, d2] →
      dget d "初始生命点" = some (.i hp) →
      dget d "初始闪避值" = some (.i ev) →
      (∃ v1, dget d "名称" = some v1) →
      (∃ v2, dget d "简介" = some v2) →
      (∃ v3, dget d "希望特性" = some v3) →
      (∃ v4, dget d "职业特性" = some v4) →
      ∃ (pkg : ZOut) (n' : Nat) (post : List Dict) (r : Dict),
        work_zzz [d] u n = .ok (pkg, n', post) ∧
        work_rrr [pkg] = .ok [r] ∧
        dget r "名称" = dget d "名称" ∧
        dget r "类型" = dget d "类型" ∧
        dget r "领域" = dget d "领域" ∧
        dget r "初始闪避值" = dget d "初始闪避值" ∧
        dget r "初始生命点" = dget d "初始生命点" ∧
        dget r "希望特性" = dget d "希望特性" ∧
        dget r "职业特性" = dget d "职业特性" ∧
        dget r "简介" = dget d "简介" ∧
        dget r "原名" = some (.s (u n)) ∧
        dget r "背景问题" = some (.arr []) ∧
        dget r "关系问题" = some (.arr []) ∧
        dkeys r = ["名称", "原名", "类型", "领域", "初始闪避值", "初始生命点",
          "希望特性", "职业特性", "背景问题", "关系问题", "简介"]) ∧
    (∀ (d : Dict) (desc : String),
      dget d "类型" = some (.s "社群") →
      dget d "描述" = some (.s desc) → pyContains desc '：' = true →
      (∃ v1, dget d "名称" = some v1) →
      (∃ v2, dget d "简介" = some v2) →
      ∃ (pkg : ZOut) (n' : Nat) (post : List Dict) (r : Dict),
        work_zzz [d] u n = .ok (pkg, n', post) ∧
        work_rrr [pkg] = .ok [r] ∧
        dget r "名称" = dget d "名称" ∧
        dget r "类型" = dget d "类型" ∧
        dget r "简介" = dget d "简介" ∧
        dget r "描述" = dget d "描述" ∧
        dget r "原名" = some (.s (u n)) ∧
        dget r "性格" = some (.s "") ∧
        dkeys r = ["名称", "原名", "类型", "简介", "性格", "描述"]) ∧
    (∀ (d : Dict) (nm tier c : String),
      dget d "类型" = some (.s "子职") →
      dget d "名称" = some (.s nm) →
      dget d "等级" = some (.s tier) →
      (tier = "基础" ∨ tier = "进阶" ∨ tier = "精通") →
      pyContains nm '-' = true →
      (pySplit nm '-').getD 0 "" ++ "-" ++ tier = nm →
      dget d "施法属性" = some (.s c) → c ≠ "" →
      (∃ v1, dget d "描述" = some v1) →
      (∃ v2, dget d "主职" = some v2) →
      ∃ (pkg : ZOut) (n' : Nat) (post : List Dict) (r : Dict),
        work_zzz [d] u n = .ok (pkg, n', post) ∧
        work_rrr [pkg] = .ok [r] ∧
        dget r "名称" = dget d "名称" ∧
        dget r "类型" = dget d "类型" ∧
        dget r "主职" = dget d "主职" ∧
        dget r "等级" = dget d "等级" ∧
        dget r "施法属性" = dget d "施法属性" ∧
        dget r "描述" = dget d "描述" ∧
        dget r "原名" = some (.s "") ∧
        dkeys r = ["名称", "原名", "类型", "主职", "等级", "施法属性", "描述"]) ∧
    (∀ (d : Dict) (lv recS : String) (klv : Int),
      dget d "类型" = some (.s "领域卡") →
      dget d "等级" = some (.s lv) →
      pyIntOfStr lv = some klv → intToStr klv = lv →
      dget d "回想" = some (.s recS) →
      (pyIsDigit recS = true → natToStr (digitsToNat recS.data) = recS) →
      (∃ v1, dget d "名称" = some v1) →
      (∃ v2, dget d "领域" = some v2) →
      (∃ v3, dget d "属性" = some v3) →
      (∃ v4, dget d "描述" = some v4) →
      ∃ (pkg : ZOut) (n' : Nat) (post : List Dict) (r : Dict),
        work_zzz [d] u n = .ok (pkg, n', post) ∧
        work_rrr [pkg] = .ok [r] ∧
        dget r "名称" = dget d "名称" ∧
        dget r "类型" = dget d "类型" ∧
        dget r "领域" = dget d "领域" ∧
        dget r "等级" = dget d "等级" ∧
        dget r "属性" = dget d "属性" ∧
        dget r "回想" = dget d "回想" ∧
        dget r "描述" = dget d "描述" ∧
        dget r "原名" = some (.s (u n)) ∧
        dkeys r = ["名称", "原名", "类型", "领域", "等级", "属性", "回想", "描述"]) := by
  refine ⟨?_, ?_, ?_, ?_⟩
  · intro d dom d1 d2 hp ev hty hdom hnorm hsplit hhp hev h1e h2e h3e h4e
    obtain ⟨v1, h1⟩ := h1e
    obtain ⟨v2, h2⟩ := h2e
    obtain ⟨v3, h3⟩ := h3e
    obtain ⟨v4, h4⟩ := h4e
    have hz := zzzStep_profession u zzzInit n hty hdom hhp hev
    rw [hnorm, hsplit] at hz
    simp only [List.getD_cons_zero, List.getD_cons_succ] at hz
    have hw := work_zzz_singleton_ok hz
    have hcp := convProfession_on (JVal.s (u n)) (dgetD d "名称" (.s "")) d1 d2
      (JVal.i hp) (JVal.i ev) (dgetD d "初始物品" (.s " ")) (dgetD d "简介" (.s "N/A"))
      (dgetD d "希望特性" (.s "")) (dgetD d "职业特性" (.s ""))
    have hjoin : d1 ++ "+" ++ d2 = dom := pySplit_pair hsplit
    refine ⟨_, _, _, _, hw,
      work_rrr_profession_single _ rfl rfl rfl rfl rfl rfl hcp,
      ?_, ?_, ?_, ?_, ?_, ?_, ?_, ?_, ?_, ?_, ?_, ?_⟩
    · simp [dget_cons, dgetD_of_dget (JVal.s "") h1, h1]
    · simp [dget_cons, hty]
    · simp [dget_cons, hdom, hjoin]
    · simp [dget_cons, hev]
    · simp [dget_cons, hhp]
    · simp [dget_cons, dgetD_of_dget (JVal.s "") h3, h3]
    · simp [dget_cons, dgetD_of_dget (JVal.s "") h4, h4]
    · simp [dget_cons, dgetD_of_dget (JVal.s "N/A") h2, h2]
    · simp [dget_cons]
    · simp [dget_cons]
    · simp [dget_cons]
    · simp [dkeys]
  · intro d desc hty hdesc hcol h1e h2e
    obtain ⟨v1, h1⟩ := h1e
    obtain ⟨v2, h2⟩ := h2e
    have hz := zzzStep_community u zzzInit n hty hdesc hcol
    have hw := work_zzz_singleton_ok hz
    have hcc := convCommunity_on (JVal.s (u n)) (dgetD d "名称" (.s ""))
      (splitOnceCh '：' desc.data).1 (splitOnceCh '：' desc.data).2
      (dgetD d "简介" (.s "N/A"))
    have hrec := splitOnceCh_recons '：' desc.data ((pyContains_iff desc '：').mp hcol)
    have hdesc2 : String.mk (splitOnceCh '：' desc.data).1 ++ "："
        ++ String.mk (splitOnceCh '：' desc.data).2 = desc := by
      apply String.ext
      simpa using hrec
    refine ⟨_, _, _, _, hw,
      work_rrr_community_single _ rfl rfl rfl rfl rfl rfl hcc,
      ?_, ?_, ?_, ?_, ?_, ?_, ?_⟩
    · simp [dget_cons, dgetD_of_dget (JVal.s "") h1, h1]
    · simp [dget_cons, hty]
    · simp [dget_cons, dgetD_of_dget (JVal.s "N/A") h2, h2]
    · simp [dget_cons, hdesc, hdesc2]
    · simp [dget_cons]
    · simp [dget_cons]
    · simp [dkeys]
  · intro d nm tier c hty hnm hlv htier hdash hsubnm hc hcne h1e h2e
    obtain ⟨v1, h1⟩ := h1e
    obtain ⟨v2, h2⟩ := h2e
    have hz := zzzStep_subclass u zzzInit n hty hnm hlv
    rw [if_pos hdash, dgetD_of_dget (JVal.s "") hc,
      if_pos (show truthy (JVal.s c) = true by simpa [truthy] using hcne)] at hz
    have hw := work_zzz_singleton_ok hz
    have hcs := convSubclass_on (JVal.s (u n)) (JVal.s nm) (dgetD d "描述" (.s ""))
      (dgetD d "主职" (.s "")) ((pySplit nm '-').getD 0 "") (tierToRrr tier) (JVal.s c)
    have hrt : tierToZzz (tierToRrr tier) = tier := by
      rcases htier with h | h | h <;> subst h <;> decide
    refine ⟨_, _, _, _, hw,
      work_rrr_subclass_single _ rfl rfl rfl rfl rfl rfl hcs,
      ?_, ?_, ?_, ?_, ?_, ?_, ?_, ?_⟩
    · have hsubnm2 : (pySplit nm '-')[0]?.getD "" ++ "-" ++ tier = nm := by
        rw [← List.getD_eq_getElem?_getD]
        exact hsubnm
      simp [dget_cons, hnm, hrt, hsubnm2]
    · simp [dget_cons, hty]
    · simp [dget_cons, dgetD_of_dget (JVal.s "") h2, h2]
    · simp [dget_cons, hlv, hrt]
    · simp [dget_cons, hc]
    · simp [dget_cons, dgetD_of_dget (JVal.s "") h1, h1]
    · simp [dget_cons]
    · simp [dkeys]
  · intro d lv recS klv hty hlv hklv hlvc hrec hrecc h1e h2e h3e h4e
    obtain ⟨v1, h1⟩ := h1e
    obtain ⟨v2, h2⟩ := h2e
    obtain ⟨v3, h3⟩ := h3e
    obtain ⟨v4, h4⟩ := h4e
    have hz := zzzStep_domaincard u zzzInit n hty hlv hklv hrec
    by_cases hdig : pyIsDigit recS = true
    · rw [if_pos hdig] at hz
      have hw := work_zzz_singleton_ok hz
      have hcd := convDomain_on (JVal.s (u n)) (dgetD d "名称" (.s ""))
        (dgetD d "领域" (.s "")) klv (dgetD d "属性" (.s ""))
        (JVal.i (digitsToNat recS.data)) (dgetD d "描述" (.s ""))
        (rfl : pyStrE (JVal.i (digitsToNat recS.data))
          = .ok (intToStr (digitsToNat recS.data)))
      have hrs : intToStr ((digitsToNat recS.data : Nat) : Int) = recS := by
        rw [intToStr_ofNat]
        exact hrecc hdig
      refine ⟨_, _, _, _, hw,
        work_rrr_domain_single _ rfl rfl rfl rfl rfl rfl hcd,
        ?_, ?_, ?_, ?_, ?_, ?_, ?_, ?_, ?_⟩
      · simp [dget_cons, dgetD_of_dget (JVal.s "") h1, h1]
      · simp [dget_cons, hty]
      · simp [dget_cons, dgetD_of_dget (JVal.s "") h2, h2]
      · simp [dget_cons, hlv, hlvc]
      · simp [dget_cons, dgetD_of_dget (JVal.s "") h3, h3]
      · simp [dget_cons, hrec, hrs]
      · simp [dget_cons, dgetD_of_dget (JVal.s "") h4, h4]
      · simp [dget_cons]
      · simp [dkeys]
    · rw [if_neg hdig] at hz
      have hw := work_zzz_singleton_ok hz
      have hcd := convDomain_on (JVal.s (u n)) (dgetD d "名称" (.s ""))
        (dgetD d "领域" (.s "")) klv (dgetD d "属性" (.s ""))
        (JVal.s recS) (dgetD d "描述" (.s ""))
        (rfl : pyStrE (JVal.s recS) = .ok recS)
      refine ⟨_, _, _, _, hw,
        work_rrr_domain_single _ rfl rfl rfl rfl rfl rfl hcd,
        ?_, ?_, ?_, ?_, ?_, ?_, ?_, ?_, ?_⟩
      · simp [dget_cons, dgetD_of_dget (JVal.s "") h1, h1]
      · simp [dget_cons, hty]
      · simp [dget_cons, dgetD_of_dget (JVal.s "") h2, h2]
      · simp [dget_cons, hlv, hlvc]
      · simp [dget_cons, dgetD_of_dget (JVal.s "") h3, h3]
      · simp [dget_cons, hrec]
      · simp [dget_cons, dgetD_of_dget (JVal.s "") h4, h4]
      · simp [dget_cons]
      · simp [dkeys]

/-- C1 counterexample: a 社群 record whose 描述 has no full-width colon is
not restored by the composition; the 描述 comes back with a colon
appended ("X" becomes "X："). -/
theorem c1_roundtrip_counterexample :
    ∃ (pkg : ZOut) (n' : Nat) (post : List Dict) (r : Dict),
      work_zzz [[("类型", JVal.s "社群"), ("名称", .s "N"), ("描述", .s "X"),
        ("简介", .s "S")]] (fun k => natToStr k) 0 = .ok (pkg, n', post) ∧
      work_rrr [pkg] = .ok [r] ∧
      dget [("类型", JVal.s "社群"), ("名称", .s "N"), ("描述", .s "X"),
        ("简介", .s "S")] "描述" = some (.s "X") ∧
      dget r "描述" = some (.s "X：") ∧
      dget r "描述" ≠ dget [("类型", JVal.s "社群"), ("名称", .s "N"),
        ("描述", .s "X"), ("简介", .s "S")] "描述" :=
  ⟨_, _, _, _, rfl, rfl, rfl, rfl, by decide⟩

theorem c1_roundtrip_except_id_witness :
    ∃ (pkg : ZOut) (n' : Nat) (post : List Dict) (r : Dict),
      work_zzz [[("类型", JVal.s "主职"), ("名称", .s "战士"), ("领域", .s "刃+骨"),
        ("初始生命点", .i 6), ("初始闪避值", .i 10), ("简介", .s "S"),
        ("希望特性", .s "H"), ("职业特性", .s "F")]]
        (fun k => natToStr k) 0 = .ok (pkg, n', post) ∧
      work_rrr [pkg] = .ok [r] ∧
      dget r "名称" = dget [[("类型", JVal.s "主职"), ("名称", .s "战士"),
        ("领域", .s "刃+骨"), ("初始生命点", .i 6), ("初始闪避值", .i 10),
        ("简介", .s "S"), ("希望特性", .s "H"), ("职业特性", .s "F")]].head!
        "名称" ∧
      dget r "类型" = dget [[("类型", JVal.s "主职"), ("名称", .s "战士"),
        ("领域", .s "刃+骨"), ("初始生命点", .i 6), ("初始闪避值", .i 10),
        ("简介", .s "S"), ("希望特性", .s "H"), ("职业特性", .s "F")]].head!
        "类型" ∧
      dget r "领域" = some (.s "刃+骨") ∧
      dget r "初始闪避值" = some (.i 10) ∧
      dget r "初始生命点" = some (.i 6) ∧
      dget r "原名" = some (.s (natToStr 0)) ∧
      dkeys r = ["名称", "原名", "类型", "领域", "初始闪避值", "初始生命点",
        "希望特性", "职业特性", "背景问题", "关系问题", "简介"] := by
  obtain ⟨pkg, n', post, r, hw, hr, e1, e2, e3, e4, e5, e6, e7, e8, e9, e10, e11, e12⟩ :=
    (c1_roundtrip_except_id (fun k => natToStr k) 0).1
      [("类型", JVal.s "主职"), ("名称", .s "战士"), ("领域", .s "刃+骨"),
        ("初始生命点", .i 6), ("初始闪避值", .i 10), ("简介", .s "S"),
        ("希望特性", .s "H"), ("职业特性", .s "F")]
      "刃+骨" "刃" "骨" 6 10 rfl rfl (by decide) (by decide) rfl rfl
      ⟨_, rfl⟩ ⟨_, rfl⟩ ⟨_, rfl⟩ ⟨_, rfl⟩
  exact ⟨pkg, n', post, r, hw, hr, e1, e2,
    by rw [e3]; rfl, by rw [e4]; rfl, by rw [e5]; rfl, e9, e12⟩

theorem zzzStep_inv_prof {d : Dict} {u : Nat → String} {o : ZOut} {n : Nat}
    {tr : ZOut × Nat × Dict} (ht : dgetD d "类型" (.s "") = .s "主职")
    (h : zzzStep u o n d = .ok tr) :
    ∃ rec1 : Dict, dget rec1 "id" = some (.s (u n)) ∧
      tr = ({ o with
          professions := insertNew o.professions (dgetD d "名称" (.s "")),
          profession := o.profession ++ [rec1] }, n + 1, d) := by
  unfold zzzStep at h
  rw [ht, if_pos rfl] at h
  obtain ⟨dom, _, h⟩ := exc_bind_eq_ok h
  obtain ⟨hp, _, h⟩ := exc_bind_eq_ok h
  obtain ⟨ev, _, h⟩ := exc_bind_eq_ok h
  simp only [exc_pure, Except.ok.injEq] at h
  exact ⟨_, by simp [dget_cons], h.symm⟩

theorem zzzStep_inv_anc {d : Dict} {u : Nat → String} {o : ZOut} {n : Nat}
    {tr : ZOut × Nat × Dict} (ht : dgetD d "类型" (.s "") = .s "种族")
    (h : zzzStep u o n d = .ok tr) :
    ∃ rec1 rec2 : Dict, dget rec1 "id" = some (.s (u n)) ∧
      dget rec2 "id" = some (.s (u (n + 1))) ∧
      tr = ({ o with
          ancestries := insertNew o.ancestries (dgetD d "名称" (.s "")),
          ancestry := o.ancestry ++ [rec1, rec2] }, n + 2, d) := by
  unfold zzzStep at h
  rw [ht, if_neg (by decide), if_pos rfl] at h
  obtain ⟨desc, _, h⟩ := exc_bind_eq_ok h
  obtain ⟨l0, _, h⟩ := exc_bind_eq_ok h
  obtain ⟨a0, _, h⟩ := exc_bind_eq_ok h
  obtain ⟨b0, _, h⟩ := exc_bind_eq_ok h
  obtain ⟨l1, _, h⟩ := exc_bind_eq_ok h
  obtain ⟨a1, _, h⟩ := exc_bind_eq_ok h
  obtain ⟨b1, _, h⟩ := exc_bind_eq_ok h
  simp only [exc_pure, Except.ok.injEq] at h
  refine ⟨_, _, ?_, by simp [dget_cons], h.symm⟩
  simp [dset, dget_cons]

theorem zzzStep_inv_comm {d : Dict} {u : Nat → String} {o : ZOut} {n : Nat}
    {tr : ZOut × Nat × Dict} (ht : dgetD d "类型" (.s "") = .s "社群")
    (h : zzzStep u o n d = .ok tr) :
    ∃ rec1 : Dict, dget rec1 "id" = some (.s (u n)) ∧
      tr = ({ o with
          communities := insertNew o.communities (dgetD d "名称" (.s "")),
          community := o.community ++ [rec1] }, n + 1, d) := by
  unfold zzzStep at h
  rw [ht, if_neg (by decide), if_neg (by decide), if_pos rfl] at h
  obtain ⟨fs, _, h⟩ := exc_bind_eq_ok h
  simp only [exc_pure, Except.ok.injEq] at h
  exact ⟨_, by simp [dget_cons], h.symm⟩

theorem zzzStep_inv_sub {d : Dict} {u : Nat → String} {o : ZOut} {n : Nat}
    {tr : ZOut × Nat × Dict} (ht : dgetD d "类型" (.s "") = .s "子职")
    (h : zzzStep u o n d = .ok tr) :
    ∃ rec1 : Dict, dget rec1 "id" = some (.s (u n)) ∧
      tr = ({ o with subclass := o.subclass ++ [rec1] }, n + 1, d) := by
  unfold zzzStep at h
  rw [ht, if_neg (by decide), if_neg (by decide), if_neg (by decide), if_pos rfl] at h
  obtain ⟨nm, _, h⟩ := exc_bind_eq_ok h
  obtain ⟨lvS, _, h⟩ := exc_bind_eq_ok h
  simp only [exc_pure, Except.ok.injEq] at h
  exact ⟨_, by simp [dget_cons], h.symm⟩

theorem zzzStep_inv_dom {d : Dict} {u : Nat → String} {o : ZOut} {n : Nat}
    {tr : ZOut × Nat × Dict} (ht : dgetD d "类型" (.s "") = .s "领域卡")
    (h : zzzStep u o n d = .ok tr) :
    ∃ rec1 : Dict, dget rec1 "id" = some (.s (u n)) ∧
      tr = ({ o with
          domains := insertNew o.domains (dgetD d "领域" (.s "")),
          domain := o.domain ++ [rec1] }, n + 1, d) := by
  unfold zzzStep at h
  rw [ht, if_neg (by decide), if_neg (by decide), if_neg (by decide), if_neg (by decide),
    if_pos rfl] at h
  obtain ⟨lvl, _, h⟩ := exc_bind_eq_ok h
  obtain ⟨recallS, _, h⟩ := exc_bind_eq_ok h
  obtain ⟨rv, _, h⟩ := exc_bind_eq_ok h
  simp only [exc_pure, Except.ok.injEq] at h
  exact ⟨_, by simp [dget_cons], h.symm⟩

theorem zzzStep_inv_var {d : Dict} {u : Nat → String} {o : ZOut} {n : Nat}
    {tr : ZOut × Nat × Dict}
    (ht1 : dgetD d "类型" (.s "") ≠ .s "主职")
    (ht2 : dgetD d "类型" (.s "") ≠ .s "种族")
    (ht3 : dgetD d "类型" (.s "") ≠ .s "社群")
    (ht4 : dgetD d "类型" (.s "") ≠ .s "子职")
    (ht5 : dgetD d "类型" (.s "") ≠ .s "领域卡")
    (h : zzzStep u o n d = .ok tr) :
    ∃ d2 : Dict, dget d2 "id" = dget d "id" ∧
      tr = ({ o with
          variants := insertNew o.variants (dgetD d "类型" (.s "")),
          variant := o.variant ++
            [dupdate [("id", .s (u n)), ("名称", dgetD d "名称" (.s ""))] d2] },
        n + 1, d2) := by
  unfold zzzStep at h
  rw [if_neg ht1, if_neg ht2, if_neg ht3, if_neg ht4, if_neg ht5] at h
  obtain ⟨parts, _, h⟩ := exc_bind_eq_ok h
  simp only [exc_pure, Except.ok.injEq] at h
  refine ⟨_, ?_, h.symm⟩
  rw [dget_dset_ne _ _ _ _ (by decide), dget_dset_ne _ _ _ _ (by decide)]

theorem jcontains_iff (l : List JVal) (x : JVal) : l.contains x = true ↔ x ∈ l := by
  simp [List.elem_iff]

theorem insertNew_nodup {l : List JVal} {x : JVal} (h : l.Nodup) :
    (insertNew l x).Nodup := by
  unfold insertNew
  by_cases hc : l.contains x
  · rw [if_pos hc]
    exact h
  · rw [if_neg hc]
    have hx : x ∉ l := fun hm => hc ((jcontains_iff l x).mpr hm)
    simp [List.nodup_append, h, hx]

theorem foldl_insertNew_nodup (xs : List JVal) :
    ∀ l : List JVal, l.Nodup → (xs.foldl insertNew l).Nodup := by
  induction xs with
  | nil => intro l h; exact h
  | cons x rest ih =>
    intro l h
    exact ih (insertNew l x) (insertNew_nodup h)

theorem firstSeen_nodup (xs : List JVal) : (firstSeen xs).Nodup :=
  foldl_insertNew_nodup xs [] (by simp)

theorem zzzFold_defs (u : Nat → String) (data : List Dict) :
    ∀ (st : ZOut × Nat × List Dict) (out : ZOut) (n' : Nat) (post : List Dict),
    data.foldlM
      (fun acc d => do
        let (o', n', d') ← zzzStep u acc.1 acc.2.1 d
        pure (o', n', acc.2.2 ++ [d'])) st = .ok (out, n', post) →
    out.professions = (profNames data).foldl insertNew st.1.professions ∧
    out.ancestries = (ancNames data).foldl insertNew st.1.ancestries ∧
    out.communities = (commNames data).foldl insertNew st.1.communities ∧
    out.domains = (domNames data).foldl insertNew st.1.domains ∧
    out.variants = (varTypes data).foldl insertNew st.1.variants := by
  induction data with
  | nil =>
    intro st out n' post h
    simp only [List.foldlM_nil, exc_pure, Except.ok.injEq] at h
    rw [h]
    simp [profNames, ancNames, commNames, domNames, varTypes]
  | cons d rest ih =>
    intro st out n' post h
    rw [List.foldlM_cons] at h
    obtain ⟨acc', hf, hcont⟩ := exc_bind_eq_ok h
    obtain ⟨tr, hz, hp⟩ := exc_bind_eq_ok hf
    have hacc' : acc' = (tr.1, tr.2.1, st.2.2 ++ [tr.2.2]) := by
      obtain ⟨o2, n2, d2⟩ := tr
      simp only [exc_pure, Except.ok.injEq] at hp
      exact hp.symm
    subst hacc'
    by_cases t1 : dgetD d "类型" (.s "") = .s "主职"
    · obtain ⟨rec1, _, htr⟩ := zzzStep_inv_prof t1 hz
      rw [htr] at hcont
      obtain ⟨i1, i2, i3, i4, i5⟩ := ih _ out n' post hcont
      refine ⟨?_, ?_, ?_, ?_, ?_⟩ <;>
        simp [profNames, ancNames, commNames, domNames, varTypes, typeOf,
          List.filterMap_cons, t1, knownTypes, i1, i2, i3, i4, i5]
    · by_cases t2 : dgetD d "类型" (.s "") = .s "种族"
      · obtain ⟨rec1, rec2, _, _, htr⟩ := zzzStep_inv_anc t2 hz
        rw [htr] at hcont
        obtain ⟨i1, i2, i3, i4, i5⟩ := ih _ out n' post hcont
        refine ⟨?_, ?_, ?_, ?_, ?_⟩ <;>
          simp [profNames, ancNames, commNames, domNames, varTypes, typeOf,
            List.filterMap_cons, t1, t2, knownTypes, i1, i2, i3, i4, i5]
      · by_cases t3 : dgetD d "类型" (.s "") = .s "社群"
        · obtain ⟨rec1, _, htr⟩ := zzzStep_inv_comm t3 hz
          rw [htr] at hcont
          obtain ⟨i1, i2, i3, i4, i5⟩ := ih _ out n' post hcont
          refine ⟨?_, ?_, ?_, ?_, ?_⟩ <;>
            simp [profNames, ancNames, commNames, domNames, varTypes, typeOf,
              List.filterMap_cons, t1, t2, t3, knownTypes, i1, i2, i3, i4, i5]
        · by_cases t4 : dgetD d "类型" (.s "") = .s "子职"
          · obtain ⟨rec1, _, htr⟩ := zzzStep_inv_sub t4 hz
            rw [htr] at hcont
            obtain ⟨i1, i2, i3, i4, i5⟩ := ih _ out n' post hcont
            refine ⟨?_, ?_, ?_, ?_, ?_⟩ <;>
              simp [profNames, ancNames, commNames, domNames, varTypes, typeOf,
                List.filterMap_cons, t1, t2, t3, t4, knownTypes, i1, i2, i3, i4, i5]
          · by_cases t5 : dgetD d "类型" (.s "") = .s "领域卡"
            · obtain ⟨rec1, _, htr⟩ := zzzStep_inv_dom t5 hz
              rw [htr] at hcont
              obtain ⟨i1, i2, i3, i4, i5⟩ := ih _ out n' post hcont
              refine ⟨?_, ?_, ?_, ?_, ?_⟩ <;>
                simp [profNames, ancNames, commNames, domNames, varTypes, typeOf,
                  List.filterMap_cons, t1, t2, t3, t4, t5, knownTypes, i1, i2, i3, i4, i5]
            · obtain ⟨d2, _, htr⟩ := zzzStep_inv_var t1 t2 t3 t4 t5 hz
              rw [htr] at hcont
              obtain ⟨i1, i2, i3, i4, i5⟩ := ih _ out n' post hcont
              refine ⟨?_, ?_, ?_, ?_, ?_⟩ <;>
                simp [profNames, ancNames, commNames, domNames, varTypes, typeOf,
                  List.filterMap_cons, t1, t2, t3, t4, t5, knownTypes, i1, i2, i3, i4, i5]

/-- C8: each of the five `customFieldDefinitions` deduplication lists
produced by `work_zzz` equals the order-of-first-appearance deduplication
(`firstSeen`) of the corresponding name stream of the input, and hence
holds each name at most once. -/
theorem c8_dedup_lists (data : List Dict) (u : Nat → String) (n : Nat)
    (out : ZOut) (n' : Nat) (post : List Dict)
    (hok : work_zzz data u n = .ok (out, n', post)) :
    (out.professions = firstSeen (profNames data) ∧ out.professions.Nodup) ∧
    (out.ancestries = firstSeen (ancNames data) ∧ out.ancestries.Nodup) ∧
    (out.communities = firstSeen (commNames data) ∧ out.communities.Nodup) ∧
    (out.domains = firstSeen (domNames data) ∧ out.domains.Nodup) ∧
    (out.variants = firstSeen (varTypes data) ∧ out.variants.Nodup) := by
  obtain ⟨i1, i2, i3, i4, i5⟩ := zzzFold_defs u data (zzzInit, n, []) out n' post hok
  have e1 : out.professions = firstSeen (profNames data) := i1
  have e2 : out.ancestries = firstSeen (ancNames data) := i2
  have e3 : out.communities = firstSeen (commNames data) := i3
  have e4 : out.domains = firstSeen (domNames data) := i4
  have e5 : out.variants = firstSeen (varTypes data) := i5
  exact ⟨⟨e1, by rw [e1]; exact firstSeen_nodup _⟩,
    ⟨e2, by rw [e2]; exact firstSeen_nodup _⟩,
    ⟨e3, by rw [e3]; exact firstSeen_nodup _⟩,
    ⟨e4, by rw [e4]; exact firstSeen_nodup _⟩,
    ⟨e5, by rw [e5]; exact firstSeen_nodup _⟩⟩

theorem c8_dedup_lists_witness :
    ∃ (out : ZOut) (n' : Nat) (post : List Dict),
      work_zzz
        [[("类型", JVal.s "主职"), ("名称", .s "战士"), ("领域", .s "刃+骨"),
          ("初始生命点", .i 6), ("初始闪避值", .i 10)],
         [("类型", JVal.s "主职"), ("名称", .s "战士"), ("领域", .s "刃+骨"),
          ("初始生命点", .i 6), ("初始闪避值", .i 10)],
         [("类型", JVal.s "领域卡"), ("名称", .s "火球"), ("领域", .s "奥秘"),
          ("等级", .s "3"), ("回想", .s "2")]]
        (fun k => natToStr k) 0 = .ok (out, n', post) ∧
      ((out.professions = firstSeen (profNames
        [[("类型", JVal.s "主职"), ("名称", .s "战士"), ("领域", .s "刃+骨"),
          ("初始生命点", .i 6), ("初始闪避值", .i 10)],
         [("类型", JVal.s "主职"), ("名称", .s "战士"), ("领域", .s "刃+骨"),
          ("初始生命点", .i 6), ("初始闪避值", .i 10)],
         [("类型", JVal.s "领域卡"), ("名称", .s "火球"), ("领域", .s "奥秘"),
          ("等级", .s "3"), ("回想", .s "2")]]) ∧ out.professions.Nodup) ∧
        out.professions = [.s "战士"] ∧ out.domains = [.s "奥秘"]) := by
  refine ⟨_, _, _, rfl, ?_, by decide, by decide⟩
  exact (c8_dedup_lists
    [[("类型", JVal.s "主职"), ("名称", .s "战士"), ("领域", .s "刃+骨"),
      ("初始生命点", .i 6), ("初始闪避值", .i 10)],
     [("类型", JVal.s "主职"), ("名称", .s "战士"), ("领域", .s "刃+骨"),
      ("初始生命点", .i 6), ("初始闪避值", .i 10)],
     [("类型", JVal.s "领域卡"), ("名称", .s "火球"), ("领域", .s "奥秘"),
      ("等级", .s "3"), ("回想", .s "2")]]
    (fun k => natToStr k) 0 _ _ _ rfl).1

theorem insertNew_mem_eq (l : List JVal) (x : JVal) :
    insertNew l x = if x ∈ l then l else l ++ [x] := by
  unfold insertNew
  by_cases h : x ∈ l
  · rw [if_pos ((jcontains_iff l x).mpr h), if_pos h]
  · rw [if_neg (fun hc => h ((jcontains_iff l x).mp hc)), if_neg h]

theorem aset_keys (k : JVal) (v : Dict) :
    ∀ r : RaceD, (aset r k v).map (fun p => p.1) = insertNew (r.map (fun p => p.1)) k := by
  intro r
  induction r with
  | nil => simp [aset, insertNew]
  | cons p rest ih =>
    by_cases h : p.1 == k
    · have hk : p.1 = k := by simpa using h
      rw [insertNew_mem_eq]
      simp [aset, h, hk]
    · have hk : ¬ k = p.1 := fun e => (by simpa using h : ¬ p.1 = k) e.symm
      have hb : (p.1 == k) = false := by simpa using (by simpa using h : ¬ p.1 = k)
      simp only [aset, hb, Bool.false_eq_true, if_false, List.map_cons, ih,
        insertNew_mem_eq, List.mem_cons]
      by_cases hm : k ∈ rest.map (fun p => p.1)
      · simp [hm, hk]
      · simp [hm, hk]

theorem mergeAncestry_keys {race race' : RaceD} {d : Dict}
    (h : mergeAncestry race d = .ok race') :
    race'.map (fun p => p.1) =
      insertNew (race.map (fun p => p.1)) (dgetD d "种族" (.s "")) := by
  unfold mergeAncestry at h
  rcases hal : alook race (dgetD d "种族" (.s "")) with _ | q
  · simp only [hal] at h
    obtain ⟨r1, _, h⟩ := exc_bind_eq_ok h
    simp only [exc_pure, Except.ok.injEq] at h
    rw [← h, aset_keys]
  · cases q with
    | nil =>
      simp only [hal] at h
      obtain ⟨r1, _, h⟩ := exc_bind_eq_ok h
      simp only [exc_pure, Except.ok.injEq] at h
      rw [← h, aset_keys]
    | cons a as =>
      simp only [hal] at h
      rcases hdg : dget (a :: as) "描述" with _ | v
      · rw [hdg] at h
        simp at h
      · rw [hdg] at h
        simp only [exc_bind_ok] at h
        obtain ⟨oldS, _, h⟩ := exc_bind_eq_ok h
        obtain ⟨nm, _, h⟩ := exc_bind_eq_ok h
        obtain ⟨ef, _, h⟩ := exc_bind_eq_ok h
        simp only [exc_pure, Except.ok.injEq] at h
        rw [← h, aset_keys]

theorem mergeFold_keys {l : List Dict} :
    ∀ {race race' : RaceD},
      l.foldlM mergeAncestry race = .ok race' →
      race'.map (fun p => p.1) =
        (l.map (fun d => dgetD d "种族" (.s ""))).foldl insertNew
          (race.map (fun p => p.1)) := by
  induction l with
  | nil =>
    intro race race' h
    simp only [List.foldlM_nil, exc_pure, Except.ok.injEq] at h
    rw [← h]
    simp
  | cons d rest ih =>
    intro race race' h
    rw [List.foldlM_cons] at h
    obtain ⟨race1, h1, h2⟩ := exc_bind_eq_ok h
    rw [List.map_cons, List.foldl_cons, ← mergeAncestry_keys h1]
    exact ih h2

theorem convAppend_cons (conv : Dict → Except String Dict) (out : List Dict)
    (d : Dict) (rest : List Dict) :
    convAppend conv out (d :: rest) =
      conv d >>= fun y => convAppend conv (out ++ [y]) rest := by
  simp only [convAppend, List.foldlM_cons]
  cases hc : conv d <;> simp [convAppend]

theorem convAppend_eq (conv : Dict → Except String Dict) (l : List Dict) :
    ∀ out : List Dict,
      convAppend conv out l = (l.mapM conv).map (fun ys => out ++ ys) := by
  induction l with
  | nil =>
    intro out
    rw [List.mapM_nil]
    simp [convAppend]
  | cons d rest ih =>
    intro out
    rw [List.mapM_cons, convAppend_cons]
    cases hc : conv d with
    | error e => simp
    | ok y =>
      simp only [exc_bind_ok]
      rw [ih (out ++ [y])]
      cases hr : rest.mapM conv with
      | error e => simp
      | ok ys => simp

theorem exc_map_eq_ok {α β : Type} {e : Except String α} {f : α → β} {y : β}
    (h : e.map f = .ok y) : ∃ x, e = .ok x ∧ y = f x := by
  cases e with
  | error er => simp at h
  | ok x => exact ⟨x, rfl, by simpa using h.symm⟩

theorem convAppend_eq_ok {conv : Dict → Except String Dict} {l out out' : List Dict}
    (h : convAppend conv out l = .ok out') :
    ∃ ys, l.mapM conv = .ok ys ∧ out' = out ++ ys := by
  rw [convAppend_eq] at h
  obtain ⟨ys, h1, h2⟩ := exc_map_eq_ok h
  exact ⟨ys, h1, h2⟩

theorem rrrRun_decomp (data : List ZOut) :
    ∀ (out : List Dict) (race : RaceD) (pr : List Dict × RaceD),
      rrrRun data out race = .ok pr →
      ∃ (ls : List (List Dict)) (rd : RaceD),
        data.mapM pkgNonAncestry = .ok ls ∧
        (ancestryRecs data).foldlM mergeAncestry race = .ok rd ∧
        pr.1 = out ++ ls.flatten ∧ pr.2 = rd := by
  induction data with
  | nil =>
    intro out race pr h
    simp only [rrrRun, Except.ok.injEq] at h
    refine ⟨[], race, rfl, rfl, ?_, ?_⟩
    · rw [← h]; simp
    · rw [← h]
  | cons pkg rest ih =>
    intro out race pr h
    simp only [rrrRun] at h
    obtain ⟨out1, hο1, h⟩ := exc_bind_eq_ok h
    obtain ⟨race1, hr1, h⟩ := exc_bind_eq_ok h
    obtain ⟨out2, hο2, h⟩ := exc_bind_eq_ok h
    obtain ⟨out3, hο3, h⟩ := exc_bind_eq_ok h
    obtain ⟨out4, hο4, h⟩ := exc_bind_eq_ok h
    obtain ⟨out5, hο5, h⟩ := exc_bind_eq_ok h
    obtain ⟨ls, rd, hm, hf, hout, hrd⟩ := ih out5 race1 pr h
    obtain ⟨ps, hps, e1⟩ := convAppend_eq_ok hο1
    obtain ⟨cs, hcs, e2⟩ := convAppend_eq_ok hο2
    obtain ⟨ss, hss, e3⟩ := convAppend_eq_ok hο3
    obtain ⟨ds, hds, e4⟩ := convAppend_eq_ok hο4
    obtain ⟨vs, hvs, e5⟩ := convAppend_eq_ok hο5
    have hpkg : pkgNonAncestry pkg = Except.ok (ps ++ cs ++ ss ++ ds ++ vs) := by
      simp only [pkgNonAncestry, hps, hcs, hss, hds, hvs, exc_bind_ok, exc_pure]
    refine ⟨(ps ++ cs ++ ss ++ ds ++ vs) :: ls, rd, ?_, ?_, ?_, hrd⟩
    · rw [List.mapM_cons]
      simp only [hpkg, exc_bind_ok, hm, exc_pure]
    · have hcat : ancestryRecs (pkg :: rest) = pkg.ancestry ++ ancestryRecs rest := by
        simp [ancestryRecs]
      rw [hcat, List.foldlM_append, hr1, exc_bind_ok, hf]
    · rw [hout, e5, e4, e3, e2, e1]
      simp

/-- C9: on success `work_rrr` returns exactly the non-ancestry records in
input encounter order (packages in order, categories within a package in
the fixed source order profession, community, subclass, domain, variant,
records within a category in list order), followed by the merged ancestry
records in order of first appearance of their ancestry name. -/
theorem c9_output_order (data : List ZOut) (out : List Dict)
    (hok : work_rrr data = .ok out) :
    ∃ (na : List Dict) (rd : RaceD),
      nonAncestryRecs data = .ok na ∧
      mergedRaces data = .ok rd ∧
      out = na ++ rd.map (fun p => p.2) ∧
      rd.map (fun p => p.1) = firstSeen (raceNames data) := by
  unfold work_rrr at hok
  obtain ⟨pr, hrun, hp⟩ := exc_bind_eq_ok hok
  simp only [exc_pure, Except.ok.injEq] at hp
  obtain ⟨ls, rd, hm, hf, hout, hrd⟩ := rrrRun_decomp data [] [] pr hrun
  refine ⟨ls.flatten, rd, ?_, ?_, ?_, ?_⟩
  · simp only [nonAncestryRecs, hm, exc_bind_ok, exc_pure]
  · exact hf
  · rw [← hp, hout, hrd]
    simp
  · have := mergeFold_keys hf
    simpa [raceNames, firstSeen] using this

theorem c9_output_order_witness :
    ∃ (out : List Dict),
      work_rrr
        [⟨[], [], [], [], [],
        [[("名称", JVal.s "战士"), ("id", .s "p1"), ("领域1", .s "刃"), ("领域2", .s "骨")]],
        [[("种族", JVal.s "精灵"), ("名称", .s "暗视"), ("效果", .s "黑暗中视物")],
         [("种族", JVal.s "矮人"), ("名称", .s "坚韧"), ("效果", .s "抗性")]],
        [], [], [], []⟩,
       ⟨[], [], [], [], [], [],
        [[("种族", JVal.s "精灵"), ("名称", .s "敏捷"), ("效果", .s "迅捷")]],
        [[("名称", JVal.s "学者"), ("特性", .s "博闻"), ("描述", .s "强记")]],
        [], [], []⟩] = .ok out ∧
      ∃ (na : List Dict) (rd : RaceD),
        nonAncestryRecs
          [⟨[], [], [], [], [],
        [[("名称", JVal.s "战士"), ("id", .s "p1"), ("领域1", .s "刃"), ("领域2", .s "骨")]],
        [[("种族", JVal.s "精灵"), ("名称", .s "暗视"), ("效果", .s "黑暗中视物")],
         [("种族", JVal.s "矮人"), ("名称", .s "坚韧"), ("效果", .s "抗性")]],
        [], [], [], []⟩,
       ⟨[], [], [], [], [], [],
        [[("种族", JVal.s "精灵"), ("名称", .s "敏捷"), ("效果", .s "迅捷")]],
        [[("名称", JVal.s "学者"), ("特性", .s "博闻"), ("描述", .s "强记")]],
        [], [], []⟩] = .ok na ∧
        mergedRaces
          [⟨[], [], [], [], [],
        [[("名称", JVal.s "战士"), ("id", .s "p1"), ("领域1", .s "刃"), ("领域2", .s "骨")]],
        [[("种族", JVal.s "精灵"), ("名称", .s "暗视"), ("效果", .s "黑暗中视物")],
         [("种族", JVal.s "矮人"), ("名称", .s "坚韧"), ("效果", .s "抗性")]],
        [], [], [], []⟩,
       ⟨[], [], [], [], [], [],
        [[("种族", JVal.s "精灵"), ("名称", .s "敏捷"), ("效果", .s "迅捷")]],
        [[("名称", JVal.s "学者"), ("特性", .s "博闻"), ("描述", .s "强记")]],
        [], [], []⟩] = .ok rd ∧
        out = na ++ rd.map (fun p => p.2) ∧
        rd.map (fun p => p.1) = firstSeen (raceNames
          [⟨[], [], [], [], [],
        [[("名称", JVal.s "战士"), ("id", .s "p1"), ("领域1", .s "刃"), ("领域2", .s "骨")]],
        [[("种族", JVal.s "精灵"), ("名称", .s "暗视"), ("效果", .s "黑暗中视物")],
         [("种族", JVal.s "矮人"), ("名称", .s "坚韧"), ("效果", .s "抗性")]],
        [], [], [], []⟩,
       ⟨[], [], [], [], [], [],
        [[("种族", JVal.s "精灵"), ("名称", .s "敏捷"), ("效果", .s "迅捷")]],
        [[("名称", JVal.s "学者"), ("特性", .s "博闻"), ("描述", .s "强记")]],
        [], [], []⟩]) := by
  refine ⟨_, rfl, ?_⟩
  exact c9_output_order
    [⟨[], [], [], [], [],
        [[("名称", JVal.s "战士"), ("id", .s "p1"), ("领域1", .s "刃"), ("领域2", .s "骨")]],
        [[("种族", JVal.s "精灵"), ("名称", .s "暗视"), ("效果", .s "黑暗中视物")],
         [("种族", JVal.s "矮人"), ("名称", .s "坚韧"), ("效果", .s "抗性")]],
        [], [], [], []⟩,
       ⟨[], [], [], [], [], [],
        [[("种族", JVal.s "精灵"), ("名称", .s "敏捷"), ("效果", .s "迅捷")]],
        [[("名称", JVal.s "学者"), ("特性", .s "博闻"), ("描述", .s "强记")]],
        [], [], []⟩] _ rfl

theorem dget_dupdate_none (d : Dict) (k : String) :
    ∀ base : Dict, dget d k = none → dget (dupdate base d) k = dget base k := by
  induction d with
  | nil => intro base _; rfl
  | cons p rest ih =>
    intro base hnone
    obtain ⟨k1, v1⟩ := p
    rw [dget_cons] at hnone
    by_cases hk : k1 == k
    · rw [if_pos hk] at hnone
      exact absurd hnone (by simp)
    · rw [if_neg hk] at hnone
      have hstep : dupdate base ((k1, v1) :: rest) = dupdate (dset base k1 v1) rest := rfl
      rw [hstep, ih _ hnone, dget_dset_ne _ _ _ _ (by simpa using hk)]

theorem perm_flush {α : Type} (pre Z W : List α) (h : W = Z ++ pre) :
    (pre ++ Z).Perm W := by
  rw [h]
  exact List.perm_append_comm

theorem idsOf_update_prof (o : ZOut) (ps : List JVal) (r : Dict) :
    (idsOf { o with
        professions := ps,
        profession := o.profession ++ [r] }).Perm (idsOf o ++ [dget r "id"]) := by
  simp only [idsOf, allEmitted, List.map_append, List.append_assoc, List.map_cons,
    List.map_nil, List.singleton_append, List.cons_append, List.nil_append]
  refine List.Perm.append_left _ ?_
  exact perm_flush [dget r "id"] _ _ (by simp)

theorem idsOf_update_anc (o : ZOut) (as : List JVal) (r1 r2 : Dict) :
    (idsOf { o with
        ancestries := as,
        ancestry := o.ancestry ++ [r1, r2] }).Perm
      (idsOf o ++ [dget r1 "id", dget r2 "id"]) := by
  simp only [idsOf, allEmitted, List.map_append, List.append_assoc, List.map_cons,
    List.map_nil, List.singleton_append, List.cons_append, List.nil_append]
  refine List.Perm.append_left _ (List.Perm.append_left _ ?_)
  exact perm_flush [dget r1 "id", dget r2 "id"] _ _ (by simp)

theorem idsOf_update_comm (o : ZOut) (cs : List JVal) (r : Dict) :
    (idsOf { o with
        communities := cs,
        community := o.community ++ [r] }).Perm (idsOf o ++ [dget r "id"]) := by
  simp only [idsOf, allEmitted, List.map_append, List.append_assoc, List.map_cons,
    List.map_nil, List.singleton_append, List.cons_append, List.nil_append]
  refine List.Perm.append_left _ (List.Perm.append_left _ (List.Perm.append_left _ ?_))
  exact perm_flush [dget r "id"] _ _ (by simp)

theorem idsOf_update_sub (o : ZOut) (r : Dict) :
    (idsOf { o with subclass := o.subclass ++ [r] }).Perm (idsOf o ++ [dget r "id"]) := by
  simp only [idsOf, allEmitted, List.map_append, List.append_assoc, List.map_cons,
    List.map_nil, List.singleton_append, List.cons_append, List.nil_append]
  refine List.Perm.append_left _ (List.Perm.append_left _ (List.Perm.append_left _
    (List.Perm.append_left _ ?_)))
  exact perm_flush [dget r "id"] _ _ (by simp)

theorem idsOf_update_dom (o : ZOut) (ds : List JVal) (r : Dict) :
    (idsOf { o with
        domains := ds,
        domain := o.domain ++ [r] }).Perm (idsOf o ++ [dget r "id"]) := by
  simp only [idsOf, allEmitted, List.map_append, List.append_assoc, List.map_cons,
    List.map_nil, List.singleton_append, List.cons_append, List.nil_append]
  refine List.Perm.append_left _ (List.Perm.append_left _ (List.Perm.append_left _
    (List.Perm.append_left _ (List.Perm.append_left _ ?_))))
  exact perm_flush [dget r "id"] _ _ (by simp)

theorem idsOf_update_var (o : ZOut) (vs : List JVal) (r : Dict) :
    (idsOf { o with
        variants := vs,
        variant := o.variant ++ [r] }).Perm (idsOf o ++ [dget r "id"]) := by
  have h : idsOf { o with
      variants := vs,
      variant := o.variant ++ [r] } = idsOf o ++ [dget r "id"] := by
    simp [idsOf, allEmitted]
  rw [h]

theorem zzzFold_ids (u : Nat → String) (data : List Dict) :
    ∀ (so : ZOut) (sn : Nat) (sp : List Dict) (out : ZOut) (n' : Nat) (post : List Dict),
    (∀ d ∈ data, typeOf d ∈ knownTypes ∨ dget d "id" = none) →
    data.foldlM
      (fun acc d => do
        let (o', n', d') ← zzzStep u acc.1 acc.2.1 d
        pure (o', n', acc.2.2 ++ [d'])) (so, sn, sp) = .ok (out, n', post) →
    ∃ m, n' = sn + m ∧
      (idsOf out).Perm
        (idsOf so ++ (List.range' sn m).map (fun k => some (JVal.s (u k)))) := by
  induction data with
  | nil =>
    intro so sn sp out n' post _ h
    simp only [List.foldlM_nil, exc_pure, Except.ok.injEq, Prod.mk.injEq] at h
    refine ⟨0, by omega, ?_⟩
    rw [← h.1]
    simp
  | cons d rest ih =>
    intro so sn sp out n' post hno h
    rw [List.foldlM_cons] at h
    simp only [] at h
    obtain ⟨acc', hf, hcont⟩ := exc_bind_eq_ok h
    obtain ⟨tr, hz, hp⟩ := exc_bind_eq_ok hf
    have hacc' : acc' = (tr.1, tr.2.1, sp ++ [tr.2.2]) := by
      obtain ⟨o2, n2, d2⟩ := tr
      simp only [exc_pure, Except.ok.injEq] at hp
      exact hp.symm
    subst hacc'
    have hnorest : ∀ x ∈ rest, typeOf x ∈ knownTypes ∨ dget x "id" = none :=
      fun x hx => hno x (List.mem_cons_of_mem d hx)
    by_cases t1 : dgetD d "类型" (.s "") = .s "主职"
    · obtain ⟨rec1, hid, htr⟩ := zzzStep_inv_prof t1 hz
      rw [htr] at hcont
      simp only [] at hcont
      obtain ⟨m, hm, hperm⟩ := ih _ _ _ out n' post hnorest hcont
      refine ⟨m + 1, by omega, ?_⟩
      have hstep := idsOf_update_prof so (insertNew so.professions (dgetD d "名称" (.s ""))) rec1
      rw [hid] at hstep
      have h2 := hperm.trans (hstep.append_right _)
      rw [show idsOf so ++ (List.range' sn (m + 1)).map (fun k => some (JVal.s (u k))) =
          (idsOf so ++ [some (JVal.s (u sn))]) ++
            (List.range' (sn + 1) m).map (fun k => some (JVal.s (u k))) from by
        rw [List.range'_succ sn m 1]
        simp]
      exact h2
    · by_cases t2 : dgetD d "类型" (.s "") = .s "种族"
      · obtain ⟨rec1, rec2, hid1, hid2, htr⟩ := zzzStep_inv_anc t2 hz
        rw [htr] at hcont
        simp only [] at hcont
        obtain ⟨m, hm, hperm⟩ := ih _ _ _ out n' post hnorest hcont
        refine ⟨m + 1 + 1, by omega, ?_⟩
        have hstep := idsOf_update_anc so (insertNew so.ancestries (dgetD d "名称" (.s ""))) rec1 rec2
        rw [hid1, hid2] at hstep
        have h2 := hperm.trans (hstep.append_right _)
        rw [show idsOf so ++ (List.range' sn (m + 1 + 1)).map (fun k => some (JVal.s (u k))) =
            (idsOf so ++ [some (JVal.s (u sn)), some (JVal.s (u (sn + 1)))]) ++
              (List.range' (sn + 1 + 1) m).map (fun k => some (JVal.s (u k))) from by
          rw [List.range'_succ sn (m + 1) 1, List.range'_succ (sn + 1) m 1]
          simp]
        exact h2
      · by_cases t3 : dgetD d "类型" (.s "") = .s "社群"
        · obtain ⟨rec1, hid, htr⟩ := zzzStep_inv_comm t3 hz
          rw [htr] at hcont
          simp only [] at hcont
          obtain ⟨m, hm, hperm⟩ := ih _ _ _ out n' post hnorest hcont
          refine ⟨m + 1, by omega, ?_⟩
          have hstep := idsOf_update_comm so (insertNew so.communities (dgetD d "名称" (.s ""))) rec1
          rw [hid] at hstep
          have h2 := hperm.trans (hstep.append_right _)
          rw [show idsOf so ++ (List.range' sn (m + 1)).map (fun k => some (JVal.s (u k))) =
              (idsOf so ++ [some (JVal.s (u sn))]) ++
                (List.range' (sn + 1) m).map (fun k => some (JVal.s (u k))) from by
            rw [List.range'_succ sn m 1]
            simp]
          exact h2
        · by_cases t4 : dgetD d "类型" (.s "") = .s "子职"
          · obtain ⟨rec1, hid, htr⟩ := zzzStep_inv_sub t4 hz
            rw [htr] at hcont
            simp only [] at hcont
            obtain ⟨m, hm, hperm⟩ := ih _ _ _ out n' post hnorest hcont
            refine ⟨m + 1, by omega, ?_⟩
            have hstep := idsOf_update_sub so rec1
            rw [hid] at hstep
            have h2 := hperm.trans (hstep.append_right _)
            rw [show idsOf so ++ (List.range' sn (m + 1)).map (fun k => some (JVal.s (u k))) =
                (idsOf so ++ [some (JVal.s (u sn))]) ++
                  (List.range' (sn + 1) m).map (fun k => some (JVal.s (u k))) from by
              rw [List.range'_succ sn m 1]
              simp]
            exact h2
          · by_cases t5 : dgetD d "类型" (.s "") = .s "领域卡"
            · obtain ⟨rec1, hid, htr⟩ := zzzStep_inv_dom t5 hz
              rw [htr] at hcont
              simp only [] at hcont
              obtain ⟨m, hm, hperm⟩ := ih _ _ _ out n' post hnorest hcont
              refine ⟨m + 1, by omega, ?_⟩
              have hstep := idsOf_update_dom so (insertNew so.domains (dgetD d "领域" (.s ""))) rec1
              rw [hid] at hstep
              have h2 := hperm.trans (hstep.append_right _)
              rw [show idsOf so ++ (List.range' sn (m + 1)).map (fun k => some (JVal.s (u k))) =
                  (idsOf so ++ [some (JVal.s (u sn))]) ++
                    (List.range' (sn + 1) m).map (fun k => some (JVal.s (u k))) from by
                rw [List.range'_succ sn m 1]
                simp]
              exact h2
            · obtain ⟨d2, hd2, htr⟩ := zzzStep_inv_var t1 t2 t3 t4 t5 hz
              rw [htr] at hcont
              simp only [] at hcont
              obtain ⟨m, hm, hperm⟩ := ih _ _ _ out n' post hnorest hcont
              refine ⟨m + 1, by omega, ?_⟩
              have hidd : dget d "id" = none := by
                rcases hno d (List.mem_cons_self d rest) with hk | hn
                · exact absurd hk (by simp [typeOf, knownTypes, t1, t2, t3, t4, t5])
                · exact hn
              have hid2 : dget d2 "id" = none := hd2.trans hidd
              have hidv : dget (dupdate
                  [("id", JVal.s (u sn)), ("名称", dgetD d "名称" (.s ""))] d2) "id" =
                  some (JVal.s (u sn)) := by
                rw [dget_dupdate_none _ _ _ hid2]
                simp [dget_cons]
              have hstep := idsOf_update_var so (insertNew so.variants (dgetD d "类型" (.s "")))
                (dupdate [("id", JVal.s (u sn)), ("名称", dgetD d "名称" (.s ""))] d2)
              rw [hidv] at hstep
              have h2 := hperm.trans (hstep.append_right _)
              rw [show idsOf so ++ (List.range' sn (m + 1)).map (fun k => some (JVal.s (u k))) =
                  (idsOf so ++ [some (JVal.s (u sn))]) ++
                    (List.range' (sn + 1) m).map (fun k => some (JVal.s (u k))) from by
                rw [List.range'_succ sn m 1]
                simp]
              exact h2

/-- C7 counterexample: `dict_in["id"] = gen_uuid()` runs before the type
dispatch, so community and domain-card sub-records also receive freshly
minted synthetic identifiers, contradicting the claim that no emitted
sub-record outside the listed categories does. -/
theorem c7_fresh_ids_counterexample :
    ∃ (out : ZOut) (n' : Nat) (post : List Dict) (rc rd : Dict),
      work_zzz
        [[("类型", JVal.s "社群"), ("名称", .s "学者"), ("描述", .s "博闻：强记")],
         [("类型", JVal.s "领域卡"), ("名称", .s "火球"), ("领域", .s "奥秘"),
          ("等级", .s "3"), ("回想", .s "2")]]
        (fun k => natToStr k) 0 = .ok (out, n', post) ∧
      out.community = [rc] ∧ dget rc "id" = some (.s "0") ∧
      out.domain = [rd] ∧ dget rd "id" = some (.s "1") := by
  refine ⟨_, _, _, _, _, rfl, rfl, ?_, rfl, ?_⟩ <;> decide

/-- C7 (amended): EVERY emitted sub-record of `work_zzz` receives a freshly
minted synthetic identifier (the 种族 branch mints a second one for its
second feature record), provided records falling into the variant
catch-all do not already carry an `id` key of their own: the identifier
slots of the emitted sub-records are a permutation of the identifiers
drawn between the initial and final counter states, and for an injective
supply they are pairwise distinct. -/
theorem c7_fresh_ids_amended (data : List Dict) (u : Nat → String) (n0 : Nat)
    (out : ZOut) (n' : Nat) (post : List Dict)
    (hok : work_zzz data u n0 = .ok (out, n', post))
    (hvar : ∀ d ∈ data, typeOf d ∈ knownTypes ∨ dget d "id" = none) :
    (idsOf out).Perm ((List.range' n0 (n' - n0)).map (fun k => some (JVal.s (u k)))) ∧
    (Function.Injective u → (idsOf out).Nodup) := by
  obtain ⟨m, hm, hperm⟩ := zzzFold_ids u data zzzInit n0 [] out n' post hvar hok
  have hm' : n' - n0 = m := by omega
  rw [hm']
  have hids0 : idsOf zzzInit = [] := rfl
  rw [hids0] at hperm
  simp only [List.nil_append] at hperm
  refine ⟨hperm, fun hinj => hperm.nodup_iff.mpr ?_⟩
  refine List.Nodup.map ?_ (List.nodup_range' _ _)
  intro a b hab
  exact hinj (by simpa using hab)

theorem c7_fresh_ids_amended_witness :
    (∀ d ∈ [[("类型", JVal.s "主职"), ("名称", .s "战士"), ("领域", .s "刃+骨"),
              ("初始生命点", .i 6), ("初始闪避值", .i 10)],
             [("类型", JVal.s "种族"), ("名称", .s "精灵"),
              ("描述", .s "暗视：夜间视物\n迅捷：敏捷提升")],
             [("类型", JVal.s "社群"), ("名称", .s "学者"), ("描述", .s "博闻：强记")],
             [("类型", JVal.s "装备"), ("名称", .s "长剑"),
              ("简略信息", .s "近战/物理"), ("特性", .s "锋利")]],
        typeOf d ∈ knownTypes ∨ dget d "id" = none) ∧
    ∃ (out : ZOut) (n' : Nat) (post : List Dict),
      work_zzz
        [[("类型", JVal.s "主职"), ("名称", .s "战士"), ("领域", .s "刃+骨"),
          ("初始生命点", .i 6), ("初始闪避值", .i 10)],
         [("类型", JVal.s "种族"), ("名称", .s "精灵"),
          ("描述", .s "暗视：夜间视物\n迅捷：敏捷提升")],
         [("类型", JVal.s "社群"), ("名称", .s "学者"), ("描述", .s "博闻：强记")],
         [("类型", JVal.s "装备"), ("名称", .s "长剑"),
          ("简略信息", .s "近战/物理"), ("特性", .s "锋利")]]
        (fun k => String.mk (List.replicate k 'x')) 0 = .ok (out, n', post) ∧
      ((idsOf out).Perm ((List.range' 0 (n' - 0)).map
          (fun k => some (JVal.s (String.mk (List.replicate k 'x'))))) ∧
        (Function.Injective (fun k => String.mk (List.replicate k 'x')) →
          (idsOf out).Nodup)) ∧
      (idsOf out).Nodup := by
  refine ⟨by decide, _, _, _, rfl, ?_, by decide⟩
  exact c7_fresh_ids_amended
    [[("类型", JVal.s "主职"), ("名称", .s "战士"), ("领域", .s "刃+骨"),
      ("初始生命点", .i 6), ("初始闪避值", .i 10)],
     [("类型", JVal.s "种族"), ("名称", .s "精灵"),
      ("描述", .s "暗视：夜间视物\n迅捷：敏捷提升")],
     [("类型", JVal.s "社群"), ("名称", .s "学者"), ("描述", .s "博闻：强记")],
     [("类型", JVal.s "装备"), ("名称", .s "长剑"),
      ("简略信息", .s "近战/物理"), ("特性", .s "锋利")]]
    (fun k => String.mk (List.replicate k 'x')) 0 _ _ _ rfl (by decide)
